import Mathlib

/-!
Verification of the streaming text-processing pipeline of the uigen repository:
the `<think>`-span filter (`StreamProcessor`), the fenced-code-block extractor
(`CodeBlockParser`), the `[NO CHANGE]` sentinel handling of `processStep`, the
delta broadcaster of the `/api/generate` handler, and `parseModelString`.

JavaScript strings are modelled as `List Char`; each JavaScript routine is
translated into an executable Lean function over an explicit state record.
-/

namespace UIGen

/-- JavaScript strings are modelled as lists of characters. -/
abbrev Str := List Char

/-! ## Substring search: `indexOf` and `lastIndexOf` -/

/-- Index of the first occurrence of `pat` in `s` (JavaScript `indexOf`),
`none` when `pat` does not occur. -/
def firstOccur (pat : Str) : Str → Option Nat
  | [] => if pat.isPrefixOf [] then some 0 else none
  | c :: s => if pat.isPrefixOf (c :: s) then some 0 else (firstOccur pat s).map (· + 1)

/-- Scan indices `n-1, n-2, …, 0` for the last occurrence of `pat`. -/
def lastOccurAux (pat s : Str) : Nat → Option Nat
  | 0 => none
  | n + 1 => if pat.isPrefixOf (s.drop n) then some n else lastOccurAux pat s n

/-- Index of the last occurrence of `pat` in `s` (JavaScript `lastIndexOf`). -/
def lastOccur (pat s : Str) : Option Nat := lastOccurAux pat s (s.length + 1)

/-- Whether `pat` occurs somewhere in `s` (JavaScript `includes`). -/
def containsSub (pat s : Str) : Bool := (firstOccur pat s).isSome

theorem firstOccur_some {pat s : Str} {i : Nat} (h : firstOccur pat s = some i) :
    pat <+: s.drop i := by
  induction s generalizing i with
  | nil =>
    unfold firstOccur at h
    split at h
    · next hp =>
      obtain rfl : 0 = i := Option.some_injective _ h
      simpa using hp
    · exact absurd h (by simp)
  | cons c t ih =>
    unfold firstOccur at h
    split at h
    · next hp =>
      obtain rfl : 0 = i := Option.some_injective _ h
      simpa using hp
    · next hp =>
      obtain ⟨i', hi', rfl⟩ := Option.map_eq_some'.mp h
      simpa using ih hi'

theorem firstOccur_min {pat s : Str} {i : Nat} (h : firstOccur pat s = some i) :
    ∀ k < i, ¬ pat <+: s.drop k := by
  induction s generalizing i with
  | nil =>
    unfold firstOccur at h
    split at h
    · obtain rfl : 0 = i := Option.some_injective _ h
      intro k hk
      omega
    · exact absurd h (by simp)
  | cons c t ih =>
    unfold firstOccur at h
    split at h
    · obtain rfl : 0 = i := Option.some_injective _ h
      intro k hk
      omega
    · next hp =>
      obtain ⟨i', hi', rfl⟩ := Option.map_eq_some'.mp h
      intro k hk
      match k with
      | 0 =>
        simpa using fun hc => hp (by simpa using hc)
      | k' + 1 =>
        have := ih hi' k' (by omega)
        simpa using this

theorem firstOccur_none {pat s : Str} (h : firstOccur pat s = none) :
    ∀ k, ¬ pat <+: s.drop k := by
  induction s with
  | nil =>
    unfold firstOccur at h
    split at h
    · exact absurd h (by simp)
    · next hp =>
      intro k
      simpa [List.drop_nil] using fun hc => hp (by simpa using hc)
  | cons c t ih =>
    unfold firstOccur at h
    split at h
    · exact absurd h (by simp)
    · next hp =>
      have ht : firstOccur pat t = none := by
        cases hft : firstOccur pat t with
        | none => rfl
        | some v => rw [hft] at h; simp at h
      intro k
      match k with
      | 0 => simpa using fun hc => hp (by simpa using hc)
      | k' + 1 => simpa using ih ht k'

theorem firstOccur_of_min {pat s : Str} {i : Nat} (hocc : pat <+: s.drop i)
    (hmin : ∀ k < i, ¬ pat <+: s.drop k) : firstOccur pat s = some i := by
  induction s generalizing i with
  | nil =>
    have : i = 0 ∨ 0 < i := by omega
    rcases this with rfl | hpos
    · simp only [List.drop_nil] at hocc
      unfold firstOccur
      rw [if_pos (by simpa using hocc)]
    · exact absurd (by simpa [List.drop_nil] using hocc) (by simpa using hmin 0 hpos)
  | cons c t ih =>
    match i with
    | 0 =>
      unfold firstOccur
      rw [if_pos (by simpa using hocc)]
    | i' + 1 =>
      have hnp : ¬ pat.isPrefixOf (c :: t) = true := by
        simpa using hmin 0 (by omega)
      unfold firstOccur
      rw [if_neg hnp]
      have : firstOccur pat t = some i' :=
        ih (by simpa using hocc) (fun k hk => by simpa using hmin (k + 1) (by omega))
      rw [this]
      rfl

theorem occ_add_length_le (pat : Str) {s : Str} {i : Nat} (hne : pat ≠ [])
    (hocc : pat <+: s.drop i) : i + pat.length ≤ s.length := by
  have hlen := hocc.length_le
  rw [List.length_drop] at hlen
  by_cases hi : i ≤ s.length
  · omega
  · exfalso
    have : s.drop i = [] := List.drop_eq_nil_of_le (by omega)
    rw [this] at hocc
    exact hne (List.prefix_nil.mp hocc)

theorem prefix_append_iff_of_le {pat l₁ l₂ : Str} (h : pat.length ≤ l₁.length) :
    (pat <+: l₁ ++ l₂) ↔ pat <+: l₁ := by
  rw [List.prefix_iff_eq_take, List.prefix_iff_eq_take,
    List.take_append_of_le_length h]

/-- A first occurrence inside `s` is still the first occurrence after appending. -/
theorem firstOccur_append_some {pat s z : Str} {i : Nat} (hne : pat ≠ [])
    (h : firstOccur pat s = some i) : firstOccur pat (s ++ z) = some i := by
  have hocc := firstOccur_some h
  have hlen := occ_add_length_le pat hne hocc
  apply firstOccur_of_min
  · rw [List.drop_append_of_le_length (by omega)]
    exact hocc.trans (List.prefix_append _ _)
  · intro k hk hc
    rw [List.drop_append_of_le_length (by omega)] at hc
    have : pat <+: s.drop k := by
      rw [prefix_append_iff_of_le (by rw [List.length_drop]; omega)] at hc
      exact hc
    exact firstOccur_min h k hk this

/-- Searching in `s` may be shifted past a region known to contain
no occurrence start. -/
theorem firstOccur_shift {pat s : Str} {d : Nat}
    (hd : ∀ k < d, ¬ pat <+: s.drop k) :
    firstOccur pat s = (firstOccur pat (s.drop d)).map (· + d) := by
  cases hin : firstOccur pat (s.drop d) with
  | some i =>
    have hocc : pat <+: s.drop (d + i) := by
      rw [← List.drop_drop]
      exact firstOccur_some hin
    have : firstOccur pat s = some (d + i) := by
      apply firstOccur_of_min hocc
      intro k hk hc
      by_cases hkd : k < d
      · exact hd k hkd hc
      · have hk' : k - d < i := by omega
        have : pat <+: (s.drop d).drop (k - d) := by
          rw [List.drop_drop]
          have : d + (k - d) = k := by omega
          rw [this]
          exact hc
        exact firstOccur_min hin _ hk' this
    rw [this]
    simp [Nat.add_comm]
  | none =>
    cases hout : firstOccur pat s with
    | none => simp
    | some j =>
      exfalso
      have hocc := firstOccur_some hout
      by_cases hj : j < d
      · exact hd j hj hocc
      · have : pat <+: (s.drop d).drop (j - d) := by
          rw [List.drop_drop]
          have : d + (j - d) = j := by omega
          rw [this]
          exact hocc
        exact firstOccur_none hin _ this

theorem lastOccurAux_some {pat s : Str} {n j : Nat}
    (h : lastOccurAux pat s n = some j) :
    pat <+: s.drop j ∧ j < n ∧ ∀ k < n, pat <+: s.drop k → k ≤ j := by
  induction n with
  | zero => simp [lastOccurAux] at h
  | succ n ih =>
    unfold lastOccurAux at h
    split at h
    · next hp =>
      obtain rfl : n = j := Option.some_injective _ h
      exact ⟨by simpa using hp, by omega, fun k hk _ => by omega⟩
    · next hp =>
      obtain ⟨h1, h2, h3⟩ := ih h
      refine ⟨h1, by omega, fun k hk hc => ?_⟩
      by_cases hkn : k < n
      · exact h3 k hkn hc
      · have : k = n := by omega
        subst this
        exact absurd (by simpa using hc) hp

theorem lastOccurAux_none {pat s : Str} {n : Nat}
    (h : lastOccurAux pat s n = none) : ∀ k < n, ¬ pat <+: s.drop k := by
  induction n with
  | zero => intro k hk; omega
  | succ n ih =>
    unfold lastOccurAux at h
    split at h
    · simp at h
    · next hp =>
      intro k hk
      by_cases hkn : k < n
      · exact ih h k hkn
      · have : k = n := by omega
        subst this
        intro hc
        exact hp (by simpa using hc)

theorem lastOccur_some {pat s : Str} {j : Nat} (hne : pat ≠ [])
    (h : lastOccur pat s = some j) :
    pat <+: s.drop j ∧ ∀ k, pat <+: s.drop k → k ≤ j := by
  obtain ⟨h1, _, h3⟩ := lastOccurAux_some h
  refine ⟨h1, fun k hc => ?_⟩
  by_cases hk : k < s.length + 1
  · exact h3 k hk hc
  · exfalso
    have : s.drop k = [] := List.drop_eq_nil_of_le (by omega)
    rw [this] at hc
    exact hne (List.prefix_nil.mp hc)

theorem lastOccur_none {pat s : Str} (h : lastOccur pat s = none) :
    ∀ k, ¬ pat <+: s.drop k := by
  intro k hc
  by_cases hk : k < s.length + 1
  · exact lastOccurAux_none h k hk hc
  · have : s.drop k = [] := List.drop_eq_nil_of_le (by omega)
    rw [this] at hc
    have : pat = [] := List.prefix_nil.mp hc
    subst this
    exact lastOccurAux_none h 0 (by omega) (by simp)

theorem lastOccur_of_max {pat s : Str} {j : Nat} (hne : pat ≠ [])
    (hocc : pat <+: s.drop j) (hmax : ∀ k, pat <+: s.drop k → k ≤ j) :
    lastOccur pat s = some j := by
  have hjlt : j < s.length + 1 := by
    have := occ_add_length_le pat hne hocc
    have : 1 ≤ pat.length := List.length_pos.mpr hne
    omega
  unfold lastOccur
  generalize hn : s.length + 1 = n at hjlt
  clear hn
  induction n with
  | zero => omega
  | succ n ih =>
    unfold lastOccurAux
    by_cases hj : j = n
    · subst hj
      rw [if_pos (by simpa using hocc)]
    · have hlt : j < n := by omega
      have hnp : ¬ pat.isPrefixOf (s.drop n) = true := by
        intro hp
        have := hmax n (by simpa using hp)
        omega
      rw [if_neg hnp]
      exact ih hlt

/-- Occurrences of a singleton pattern are exactly character positions. -/
theorem singleton_prefix_drop {c : Char} {s : Str} {k : Nat} :
    ([c] <+: s.drop k) ↔ ∃ h : k < s.length, s[k] = c := by
  constructor
  · intro h
    have hlen := h.length_le
    rw [List.length_drop] at hlen
    simp only [List.length_singleton] at hlen
    have hk : k < s.length := by omega
    refine ⟨hk, ?_⟩
    have := h.getElem (n := 0) (by simp)
    rw [List.getElem_drop] at this
    simpa using this.symm
  · rintro ⟨hk, hc⟩
    have : s.drop k = s[k] :: s.drop (k + 1) := by
      rw [List.drop_eq_getElem_cons hk]
    rw [this, hc]
    exact ⟨_, rfl⟩

/-! ## `ModelManager.parseModelString` (src/src/model/index.js)

JavaScript: `modelString.split('/')` destructured into its first two fields,
guarded by `modelString.includes('/')`; otherwise an error is thrown
(modelled as `none`). -/

/-- JavaScript `String.prototype.split(sep)` on character lists. -/
def jsSplit (sep : Char) (s : Str) : List Str :=
  match h : firstOccur [sep] s with
  | none => [s]
  | some i =>
      s.take i :: jsSplit sep (s.drop (i + 1))
termination_by s.length
decreasing_by
  have hocc := firstOccur_some h
  have := occ_add_length_le [sep] (by simp) hocc
  simp only [List.length_singleton] at this
  rw [List.length_drop]
  omega

/-- `ModelManager.parseModelString`: `{providerName, modelName}` from
`Provider/Model`, or a thrown error (`none`) when no `/` is present. -/
def parseModelString (s : Str) : Option (Str × Str) :=
  if '/' ∈ s then
    match jsSplit '/' s with
    | p :: m :: _ => some (p, m)
    | [p] => some (p, [])
    | [] => none
  else none

theorem firstOccur_singleton_notMem {c : Char} {s : Str} (h : ¬ c ∈ s) :
    firstOccur [c] s = none := by
  cases hf : firstOccur [c] s with
  | none => rfl
  | some i =>
    exfalso
    have := firstOccur_some hf
    rw [singleton_prefix_drop] at this
    obtain ⟨hk, hc⟩ := this
    exact h (hc ▸ List.getElem_mem hk)

theorem firstOccur_singleton_junction {c : Char} {a b : Str} (h : ¬ c ∈ a) :
    firstOccur [c] (a ++ c :: b) = some a.length := by
  apply firstOccur_of_min
  · rw [List.drop_append_of_le_length (by omega)]
    simp
  · intro k hk hc
    rw [singleton_prefix_drop] at hc
    obtain ⟨hlt, hget⟩ := hc
    rw [List.getElem_append_left (by omega)] at hget
    exact h (hget ▸ List.getElem_mem (by omega))

theorem splitDecomp {c : Char} {s : Str} (h : c ∈ s) :
    ∃ a b, ¬ c ∈ a ∧ s = a ++ c :: b := by
  induction s with
  | nil => simp at h
  | cons x t ih =>
    by_cases hx : x = c
    · exact ⟨[], t, by simp, by simp [hx]⟩
    · rcases List.mem_cons.mp h with heq | hmem
      · exact absurd heq.symm hx
      · obtain ⟨a, b, ha, hab⟩ := ih hmem
        refine ⟨x :: a, b, ?_, by simp [hab]⟩
        simp only [List.mem_cons, not_or]
        exact ⟨fun hcx => hx hcx.symm, ha⟩

theorem jsSplit_junction {c : Char} {a b : Str} (h : ¬ c ∈ a) :
    jsSplit c (a ++ c :: b) = a :: jsSplit c b := by
  rw [jsSplit]
  split
  · next heq =>
    rw [firstOccur_singleton_junction h] at heq
    simp at heq
  · next i heq =>
    rw [firstOccur_singleton_junction h] at heq
    obtain rfl : a.length = i := by simpa using heq
    congr 1
    · rw [List.take_append_of_le_length (by omega)]
      simp
    · rw [show a ++ c :: b = (a ++ [c]) ++ b by simp,
        show a.length + 1 = (a ++ [c]).length by simp, List.drop_left]

theorem jsSplit_cons {c : Char} (s : Str) :
    ∃ rest, jsSplit c s = s.takeWhile (· ≠ c) :: rest := by
  by_cases h : c ∈ s
  · obtain ⟨a, b, ha, rfl⟩ := splitDecomp h
    refine ⟨jsSplit c b, ?_⟩
    rw [jsSplit_junction ha]
    have hpos : ∀ x ∈ a, (decide (x ≠ c)) = true := by
      intro x hx
      simp only [ne_eq, decide_eq_true_eq]
      exact fun hxc => ha (hxc ▸ hx)
    have h1 : (c :: b).takeWhile (fun x => decide (x ≠ c)) = [] := by
      rw [List.takeWhile_cons_of_neg]
      simp
    rw [List.takeWhile_append_of_pos hpos, h1]
    simp
  · refine ⟨[], ?_⟩
    rw [jsSplit, firstOccur_singleton_notMem h]
    have : s.takeWhile (· ≠ c) = s := by
      rw [List.takeWhile_eq_self_iff]
      intro x hx
      simp only [ne_eq, decide_eq_true_eq]
      exact fun hxc => h (hxc ▸ hx)
    rw [this]

/-- C10: for a model string with at least one `/`, `parseModelString` returns
the text before the first `/` as provider and the text between the first and
second `/` as model, dropping anything after a second `/`; with no `/` it
throws. -/
theorem parseModelString_spec :
    (∀ a b : Str, ¬ '/' ∈ a →
      parseModelString (a ++ '/' :: b) = some (a, b.takeWhile (· ≠ '/'))) ∧
    (∀ s : Str, ¬ '/' ∈ s → parseModelString s = none) := by
  constructor
  · intro a b ha
    have hmem : '/' ∈ a ++ '/' :: b := by simp
    unfold parseModelString
    rw [if_pos hmem, jsSplit_junction ha]
    obtain ⟨rest, hsp⟩ := jsSplit_cons (c := '/') b
    rw [hsp]
  · intro s hs
    unfold parseModelString
    rw [if_neg hs]

/-- Witness for C10 at `"Ollama/llama3/extra"`. -/
theorem parseModelString_spec_witness :
    parseModelString ("Ollama/llama3/extra".toList) =
      some ("Ollama".toList, "llama3".toList) := by
  have h := parseModelString_spec.1 ("Ollama".toList) ("llama3/extra".toList)
    (by decide)
  simpa using h

/-! ## `CodeBlockParser` (src/CodeBlockParser.js)

State fields `buffer`, `inCodeBlock`, `codeBlockComplete`; the transient
`codeStartIndex` and `languageTag` of the source only influence how much of
the buffer is discarded when the opening fence is recognised, which is
captured by `langOffset`. -/

/-- The triple-backtick fence marker. -/
def fence : Str := ['`', '`', '`']

/-- JavaScript `\w` (ASCII range): letters, digits, underscore. -/
def isWordChar (c : Char) : Bool := c.isAlphanum || c = '_'

/-- JavaScript `\s` for the language-tag regex `^(\w+)[\s\n]` (ASCII range). -/
def isRegexSpace (c : Char) : Bool :=
  c = ' ' || c = '\t' || c = '\n' || c = '\r' || c = '\x0b' || c = '\x0c'

/-- The characters skipped by the explicit whitespace loop after the
opening fence: `' '`, `'\n'`, `'\r'`. -/
def isSkipChar (c : Char) : Bool := c = ' ' || c = '\n' || c = '\r'

/-- How many characters after the opening fence are consumed as language tag
plus following whitespace: the regex `^(\w+)[\s\n]` advances past the tag only
when a whitespace terminator is already buffered, then the loop skips
`' '`, `'\n'`, `'\r'`. -/
def langOffset (rest : Str) : Nat :=
  let w := rest.takeWhile isWordChar
  let term :=
    match rest.drop w.length with
    | c :: _ => isRegexSpace c
    | [] => false
  let base := if !w.isEmpty && term then w.length else 0
  base + ((rest.drop base).takeWhile isSkipChar).length

structure CBState where
  buffer : Str
  inCodeBlock : Bool
  codeBlockComplete : Bool
deriving DecidableEq, Repr

/-- Initial `CodeBlockParser` state. -/
def cbInit : CBState := ⟨[], false, false⟩

/-- The partial-closing-fence buffering heuristic (lines 82–101): when the
last backtick is within two characters of the end, withhold the final two
characters; otherwise emit the whole buffer. -/
def cbPartial (buf : Str) : List Str × CBState :=
  match lastOccur ['`'] buf with
  | some p =>
      if p + 2 ≥ buf.length then
        (if buf.take (buf.length - 2) ≠ [] then [buf.take (buf.length - 2)] else [],
         ⟨buf.drop (buf.length - 2), true, false⟩)
      else (if buf ≠ [] then [buf] else [], ⟨[], true, false⟩)
  | none => (if buf ≠ [] then [buf] else [], ⟨[], true, false⟩)

/-- The in-block part of `processChunk` (lines 66–102 of the source), acting
on the full buffer `buf`. -/
def cbInBlock (buf : Str) : List Str × CBState :=
  match lastOccur fence buf with
  | some j =>
      if j > 0 then
        (if buf.take j ≠ [] then [buf.take j] else [], ⟨[], true, true⟩)
      else cbPartial buf
  | none => cbPartial buf

/-- `CodeBlockParser.processChunk`: appends the chunk to the buffer, looks for
the opening fence while not yet in a block (consuming language tag and
whitespace), then looks for the closing fence via `lastIndexOf`. -/
def cbProcessChunk (st : CBState) (chunk : Str) : List Str × CBState :=
  if chunk = [] then ([], st)
  else
    let buf0 := st.buffer ++ chunk
    if st.inCodeBlock then
      if st.codeBlockComplete then ([], ⟨buf0, true, true⟩)
      else cbInBlock buf0
    else
      match firstOccur fence buf0 with
      | none => ([], ⟨buf0, false, st.codeBlockComplete⟩)
      | some i =>
          let rest := (buf0.drop (i + 3))
          let buf := rest.drop (langOffset rest)
          if st.codeBlockComplete then ([], ⟨buf, true, true⟩)
          else cbInBlock buf

/-- `CodeBlockParser.finalize`. -/
def cbFinalize (st : CBState) : List Str :=
  if st.inCodeBlock ∧ ¬ st.codeBlockComplete ∧ st.buffer ≠ [] then [st.buffer]
  else []

/-- Run `processChunk` over a list of chunks from a given state, collecting
the yielded fragments. -/
def cbRunFrom (st : CBState) : List Str → List Str × CBState
  | [] => ([], st)
  | c :: cs =>
      let (o, st1) := cbProcessChunk st c
      let (o', st2) := cbRunFrom st1 cs
      (o ++ o', st2)

/-- Run the parser from its initial state and apply `finalize` at the end,
as `ModelManager.streamCodeBlock` does. -/
def cbExtract (chunks : List Str) : List Str :=
  let (o, st) := cbRunFrom cbInit chunks
  o ++ cbFinalize st

theorem cbInBlock_eq {buf : Str} {j : Nat} (h : lastOccur fence buf = some j)
    (hj : 0 < j) (ht : buf.take j ≠ []) :
    cbInBlock buf = ([buf.take j], ⟨[], true, true⟩) := by
  unfold cbInBlock
  split
  · next j' heq =>
    obtain rfl : j' = j := by rw [heq] at h; exact Option.some_injective _ h
    rw [if_pos hj, if_pos ht]
  · next heq => rw [heq] at h; simp at h

/-- C1 (code bug): the fence round-trip fails when a chunk boundary splits
the language tag from its terminating newline.  For
`"```html\nhello```" = "```" ++ lang ++ "\n" ++ CONTENT ++ "```"` with
`lang = "html"` and `CONTENT = "hello"`, feeding the chunks
`["```html", "\nhello```"]` makes the parser emit the language tag as
content: the concatenated output is `"html\nhello"`, not `"hello"`. -/
theorem cbExtract_langSplit_bug :
    (cbExtract [("```html".toList), ("\nhello```".toList)]).flatten =
        ("html\nhello".toList) ∧
      ("html\nhello".toList) ≠ ("hello".toList) := by
  constructor
  · decide
  · decide

/-- C8 counterexample: in the in-block phase the parser searches for the
closing fence with `lastIndexOf`, not the first marker after the block start.
On the single chunk `"```js\na```b```"` it emits `"a```b"` — the text before
the LAST marker — not `"a"`. -/
theorem cbInBlock_lastMarker_counterexample :
    (cbProcessChunk cbInit ("```js\na```b```".toList)).1 = [("a```b".toList)] ∧
      [("a```b".toList)] ≠ [("a".toList)] := by
  constructor
  · decide
  · decide

/-- C8 amended: while in the in-block phase, if the buffered text contains a
triple-backtick marker strictly after the block start, `processChunk` emits
exactly the text before the LAST such marker (the source uses `lastIndexOf`),
transitions to `Complete`, and discards the remainder; text before the last
marker, including any earlier markers, is emitted as content. -/
theorem cbInBlock_emits_before_last_marker (st : CBState) (chunk : Str)
    (hin : st.inCodeBlock = true) (hnc : st.codeBlockComplete = false)
    (hchunk : chunk ≠ []) (j : Nat) (hj : 0 < j)
    (hocc : fence <+: (st.buffer ++ chunk).drop j)
    (hmax : ∀ k ≤ (st.buffer ++ chunk).length,
      fence <+: (st.buffer ++ chunk).drop k → k ≤ j) :
    cbProcessChunk st chunk =
      ([(st.buffer ++ chunk).take j], ⟨[], true, true⟩) := by
  have hmax' : ∀ k, fence <+: (st.buffer ++ chunk).drop k → k ≤ j := by
    intro k hk
    by_cases hkl : k ≤ (st.buffer ++ chunk).length
    · exact hmax k hkl hk
    · exfalso
      rw [List.drop_eq_nil_of_le (by omega)] at hk
      exact absurd (List.prefix_nil.mp hk) (by decide)
  have hlast : lastOccur fence (st.buffer ++ chunk) = some j :=
    lastOccur_of_max (by decide) hocc hmax'
  have hlen : j + 3 ≤ (st.buffer ++ chunk).length := by
    simpa [fence] using occ_add_length_le fence (by decide) hocc
  have htake : (st.buffer ++ chunk).take j ≠ [] := by
    intro hemp
    have := congrArg List.length hemp
    rw [List.length_take] at this
    simp only [List.length_nil] at this
    omega
  have hmain : cbProcessChunk st chunk = cbInBlock (st.buffer ++ chunk) := by
    unfold cbProcessChunk
    rw [if_neg hchunk, hin, hnc]
    simp
  rw [hmain, cbInBlock_eq hlast hj htake]

/-- Witness for the amended C8 on the concrete counterexample input: the text
before the last marker (position 5 of the in-block buffer) is emitted. -/
theorem cbInBlock_emits_before_last_marker_witness :
    cbProcessChunk ⟨[], true, false⟩ ("a```b```".toList) =
      ([("a```b".toList)], ⟨[], true, true⟩) := by
  have h := cbInBlock_emits_before_last_marker ⟨[], true, false⟩
    ("a```b```".toList) rfl rfl (by decide) 5 (by decide) (by decide)
    (by decide)
  simpa using h

/-! ## `processStep` sentinel handling (src/src/model/index.js, lines 135–180)

When prior code exists, the first extracted fragments are buffered while the
trimmed accumulation is a prefix of `"[NO CHANGE]"`; an exact match reverts to
the prior code, a divergence flushes the buffer and passes the rest through. -/

/-- Whitespace stripped by JavaScript `String.prototype.trim` (ASCII range). -/
def isJsWS (c : Char) : Bool :=
  c = ' ' || c = '\t' || c = '\n' || c = '\r' || c = '\x0b' || c = '\x0c'

/-- JavaScript `trim`: strip leading and trailing whitespace. -/
def jsTrim (s : Str) : Str :=
  ((s.dropWhile isJsWS).reverse.dropWhile isJsWS).reverse

/-- The `NO_CHANGE` sentinel token. -/
def sentinel : Str := "[NO CHANGE]".toList

/-- The `for await` loop of `processStep` with its trailing buffer check:
`buffer` accumulates fragments while `firstChunk` matching is active. -/
def processStepGo (existing : Str) : List Str → Str → List Str
  | [], buffer =>
      if buffer ≠ [] then
        if jsTrim buffer = sentinel then [existing] else [buffer]
      else []
  | c :: rest, buffer =>
      let b := buffer ++ c
      let clean := jsTrim b
      if clean.isPrefixOf sentinel then
        if clean = sentinel then [existing] else processStepGo existing rest b
      else b :: rest

/-- `processStep` on the list of extracted fragments: with no prior code the
stream is passed through; otherwise the sentinel state machine runs. -/
def processStep (existing : Str) (chunks : List Str) : List Str :=
  if existing = [] then chunks else processStepGo existing chunks []

theorem trim_decomp (s : Str) :
    ∃ w1 w2, s = w1 ++ jsTrim s ++ w2 ∧
      (∀ c ∈ w1, isJsWS c = true) ∧ (∀ c ∈ w2, isJsWS c = true) := by
  refine ⟨s.takeWhile isJsWS,
    ((s.dropWhile isJsWS).reverse.takeWhile isJsWS).reverse, ?_, ?_, ?_⟩
  · conv_lhs => rw [← List.takeWhile_append_dropWhile (p := isJsWS) (l := s)]
    rw [List.append_assoc]
    congr 1
    conv_lhs => rw [← List.reverse_reverse (s.dropWhile isJsWS),
      ← List.takeWhile_append_dropWhile (p := isJsWS)
        (l := (s.dropWhile isJsWS).reverse)]
    rw [List.reverse_append]
    rfl
  · intro c hc
    exact List.mem_takeWhile_imp hc
  · intro c hc
    rw [List.mem_reverse] at hc
    exact List.mem_takeWhile_imp hc

theorem trim_ws_left {w r : Str} (hw : ∀ c ∈ w, isJsWS c = true) :
    jsTrim (w ++ r) = jsTrim r := by
  unfold jsTrim
  rw [List.dropWhile_append_of_pos hw]

theorem trim_prefix_dropWhile (t : Str) : jsTrim t <+: t.dropWhile isJsWS := by
  unfold jsTrim
  conv_rhs => rw [← List.reverse_reverse (t.dropWhile isJsWS),
    ← List.takeWhile_append_dropWhile (p := isJsWS)
      (l := (t.dropWhile isJsWS).reverse)]
  rw [List.reverse_append]
  exact List.prefix_append _ _

/-- `trim` of a sentinel surrounded by whitespace is exactly the sentinel. -/
theorem trim_sandwich {w1 w2 : Str} (hw1 : ∀ c ∈ w1, isJsWS c = true)
    (hw2 : ∀ c ∈ w2, isJsWS c = true) :
    jsTrim (w1 ++ sentinel ++ w2) = sentinel := by
  rw [List.append_assoc, trim_ws_left hw1]
  unfold jsTrim
  have h1 : (sentinel ++ w2).dropWhile isJsWS = sentinel ++ w2 := by
    have hs : sentinel ++ w2 = '[' :: (("NO CHANGE]".toList) ++ w2) := rfl
    rw [hs, List.dropWhile_cons_of_neg (by decide)]
  rw [h1, List.reverse_append, List.dropWhile_append_of_pos
    (by intro c hc; rw [List.mem_reverse] at hc; exact hw2 c hc)]
  have h2 : sentinel.reverse.dropWhile isJsWS = sentinel.reverse := by decide
  rw [h2, List.reverse_reverse]

/-- Any prefix of whitespace-wrapped sentinel text trims to a sentinel
prefix. -/
theorem trim_prefix_of_sentinel {w1 w2 p : Str}
    (hw1 : ∀ c ∈ w1, isJsWS c = true) (hw2 : ∀ c ∈ w2, isJsWS c = true)
    (hp : p <+: w1 ++ (sentinel ++ w2)) : jsTrim p <+: sentinel := by
  by_cases hlen : p.length ≤ w1.length
  · have hpw : p <+: w1 := by
      obtain ⟨q, hq⟩ := hp
      rw [List.prefix_iff_eq_take]
      have := congrArg (List.take p.length) hq
      rw [List.take_append_of_le_length (le_refl _), List.take_length,
        List.take_append_of_le_length hlen] at this
      exact this
    have hall : ∀ c ∈ p, isJsWS c = true := fun c hc => hw1 c (hpw.subset hc)
    have : p.dropWhile isJsWS = [] := List.dropWhile_eq_nil_iff.mpr hall
    unfold jsTrim
    rw [this]
    simp
  · obtain ⟨q, hq⟩ := hp
    have hw1p : p.take w1.length = w1 := by
      have := congrArg (List.take w1.length) hq
      rw [List.take_append_of_le_length (by omega),
        List.take_append_of_le_length (le_refl _), List.take_length] at this
      exact this
    have hsplit : p = w1 ++ p.drop w1.length := by
      conv_lhs => rw [← List.take_append_drop w1.length p]
      rw [hw1p]
    have htq : p.drop w1.length ++ q = sentinel ++ w2 := by
      have := congrArg (List.drop w1.length) hq
      rw [List.drop_append_of_le_length (by omega), List.drop_left] at this
      exact this
    have htrim : jsTrim p = jsTrim (p.drop w1.length) := by
      conv_lhs => rw [hsplit]
      exact trim_ws_left hw1
    rw [htrim]
    by_cases hm : (p.drop w1.length).length ≤ sentinel.length
    · have htpre : p.drop w1.length <+: sentinel := by
        rw [List.prefix_iff_eq_take]
        have := congrArg (List.take (p.drop w1.length).length) htq
        rw [List.take_append_of_le_length (le_refl _), List.take_length,
          List.take_append_of_le_length hm] at this
        exact this
      cases hcase : p.drop w1.length with
      | nil => simp [jsTrim]
      | cons c t' =>
        rw [hcase] at htpre
        have hc : c = '[' := by
          have : sentinel = '[' :: ("NO CHANGE]".toList) := by decide
          rw [this, List.cons_prefix_cons] at htpre
          exact htpre.1
        refine (trim_prefix_dropWhile (c :: t')).trans ?_
        rw [List.dropWhile_cons_of_neg (by rw [hc]; decide)]
        exact htpre
    · have hsent : (p.drop w1.length).take sentinel.length = sentinel := by
        have := congrArg (List.take sentinel.length) htq
        rw [List.take_append_of_le_length (by omega),
          List.take_append_of_le_length (le_refl _), List.take_length] at this
        exact this
      have hsplit2 : p.drop w1.length =
          sentinel ++ (p.drop w1.length).drop sentinel.length := by
        conv_lhs => rw [← List.take_append_drop sentinel.length (p.drop w1.length)]
        rw [hsent]
      have hw2' : ∀ c ∈ (p.drop w1.length).drop sentinel.length, isJsWS c = true := by
        intro c hc
        apply hw2
        have hd : (p.drop w1.length).drop sentinel.length ++ q = w2 := by
          have := congrArg (List.drop sentinel.length) htq
          rw [List.drop_append_of_le_length (by omega), List.drop_left] at this
          exact this
        rw [← hd]
        exact List.mem_append_left _ hc
      rw [hsplit2]
      have hnilws : ∀ c ∈ ([] : Str), isJsWS c = true := by simp
      have := trim_sandwich hnilws hw2'
      rw [List.nil_append] at this
      rw [this]

theorem processStepGo_sentinel (existing : Str) {w1 w2 : Str}
    (hw1 : ∀ c ∈ w1, isJsWS c = true) (hw2 : ∀ c ∈ w2, isJsWS c = true) :
    ∀ (chunks : List Str) (buffer : Str),
      buffer ++ chunks.flatten = w1 ++ sentinel ++ w2 →
      processStepGo existing chunks buffer = [existing] := by
  intro chunks
  induction chunks with
  | nil =>
    intro buffer htot
    rw [List.flatten_nil, List.append_nil] at htot
    have hbne : buffer ≠ [] := by
      intro h
      rw [h] at htot
      have := congrArg List.length htot
      simp [sentinel] at this
      omega
    have : jsTrim buffer = sentinel := by rw [htot]; exact trim_sandwich hw1 hw2
    unfold processStepGo
    rw [if_pos hbne, if_pos this]
  | cons c rest ih =>
    intro buffer htot
    rw [List.flatten_cons, ← List.append_assoc] at htot
    have hpre : buffer ++ c <+: w1 ++ (sentinel ++ w2) := by
      refine ⟨rest.flatten, ?_⟩
      rw [htot, List.append_assoc]
    have hcl := trim_prefix_of_sentinel hw1 hw2 hpre
    unfold processStepGo
    rw [if_pos (List.isPrefixOf_iff_prefix.mpr hcl)]
    by_cases heq : jsTrim (buffer ++ c) = sentinel
    · rw [if_pos heq]
    · rw [if_neg heq]
      exact ih (buffer ++ c) htot

/-- C3: with non-empty prior code `P` and an extracted response whose full
text trims to exactly the sentinel `"[NO CHANGE]"` (surrounding whitespace
allowed), however the response is split into fragments, `processStep` emits
exactly `[P]`: the prior code verbatim and nothing else. -/
theorem processStep_sentinel_revert (existing : Str) (chunks : List Str)
    (hne : existing ≠ []) (hs : jsTrim chunks.flatten = sentinel) :
    processStep existing chunks = [existing] := by
  unfold processStep
  rw [if_neg hne]
  obtain ⟨w1, w2, hdec, hw1, hw2⟩ := trim_decomp chunks.flatten
  rw [hs] at hdec
  exact processStepGo_sentinel existing hw1 hw2 chunks [] (by simpa using hdec)

/-- Witness for C3: prior code `"old"`, response fragments
`[" [NO ", "CHANGE]\n"]`. -/
theorem processStep_sentinel_revert_witness :
    processStep ("old".toList) [(" [NO ".toList), ("CHANGE]\n".toList)] =
      [("old".toList)] :=
  processStep_sentinel_revert ("old".toList) _ (by decide) (by decide)

/-- The unbuffered baseline of the spec's divergence property: every
fragment is passed straight through. -/
def unbufferedBaseline (chunks : List Str) : List Str := chunks

theorem processStepGo_diverge (existing c : Str) (post : List Str) :
    ∀ (pre : List Str) (buffer : Str),
      (∀ n ≤ pre.length,
        jsTrim (buffer ++ ((pre.take n).flatten)) <+: sentinel ∧
        jsTrim (buffer ++ ((pre.take n).flatten)) ≠ sentinel) →
      ¬ (jsTrim ((buffer ++ pre.flatten) ++ c) <+: sentinel) →
      processStepGo existing (pre ++ c :: post) buffer =
        ((buffer ++ pre.flatten) ++ c) :: post := by
  intro pre
  induction pre with
  | nil =>
    intro buffer hpre hdiv
    rw [List.flatten_nil, List.append_nil] at hdiv
    show processStepGo existing (c :: post) buffer = _
    unfold processStepGo
    rw [if_neg (fun hp => hdiv (List.isPrefixOf_iff_prefix.mp hp))]
    rw [List.flatten_nil, List.append_nil]
  | cons p0 pre' ih =>
    intro buffer hpre hdiv
    have h1 := hpre 1 (by simp)
    simp only [List.take_succ_cons, List.take_zero, List.flatten_cons,
      List.flatten_nil, List.append_nil] at h1
    show processStepGo existing (p0 :: (pre' ++ c :: post)) buffer = _
    unfold processStepGo
    rw [if_pos (List.isPrefixOf_iff_prefix.mpr h1.1), if_neg h1.2]
    have := ih (buffer ++ p0)
      (fun n hn => by
        have := hpre (n + 1) (by simp; omega)
        simpa [List.take_succ_cons, List.flatten_cons, List.append_assoc]
          using this)
      (by
        rw [List.flatten_cons, ← List.append_assoc] at hdiv
        simpa [List.append_assoc] using hdiv)
    rw [this]
    simp [List.append_assoc]

/-- C5: with non-empty prior code, if the accumulated trim after each of the
first fragments is a strict prefix of the sentinel and the accumulation then
diverges (its trim stops being a sentinel prefix), `processStep`'s
concatenated output equals that of the unbuffered pass-through baseline:
nothing lost, nothing duplicated. -/
theorem processStep_divergence_flush (existing c : Str) (pre post : List Str)
    (hne : existing ≠ [])
    (hpre : ∀ n ≤ pre.length,
      jsTrim ((pre.take n).flatten) <+: sentinel ∧
      jsTrim ((pre.take n).flatten) ≠ sentinel)
    (hdiv : ¬ (jsTrim (pre.flatten ++ c) <+: sentinel)) :
    (processStep existing (pre ++ c :: post)).flatten =
      (unbufferedBaseline (pre ++ c :: post)).flatten := by
  unfold processStep unbufferedBaseline
  rw [if_neg hne]
  rw [processStepGo_diverge existing c post pre []
    (by simpa using hpre) (by simpa using hdiv)]
  simp

/-- Witness for C5: prior code `"old"`, fragments
`["[NO ", "CHANGE] more", "tail"]` — `"[NO"` is a strict sentinel prefix,
then the accumulation diverges. -/
theorem processStep_divergence_flush_witness :
    (processStep ("old".toList)
        ([("[NO ".toList)] ++ ("CHANGE] more".toList) :: [("tail".toList)])).flatten =
      (unbufferedBaseline
        ([("[NO ".toList)] ++ ("CHANGE] more".toList) :: [("tail".toList)])).flatten := by
  apply processStep_divergence_flush
  · decide
  · intro n hn
    simp only [List.length_cons, List.length_nil, Nat.zero_add] at hn
    interval_cases n
    · exact ⟨by decide, by decide⟩
    · exact ⟨by decide, by decide⟩
  · decide

theorem firstOccur_eq_none_iff {pat s : Str} :
    firstOccur pat s = none ↔ ∀ k, ¬ pat <+: s.drop k := by
  constructor
  · exact firstOccur_none
  · intro h
    cases hf : firstOccur pat s with
    | none => rfl
    | some i => exact absurd (firstOccur_some hf) (h i)

theorem occ_in_prefix {pat x y : Str} {k : Nat} (hxy : x <+: y)
    (h : pat <+: x.drop k) : pat <+: y.drop k := by
  obtain ⟨r, rfl⟩ := hxy
  by_cases hk : k ≤ x.length
  · rw [List.drop_append_of_le_length hk]
    exact h.trans (List.prefix_append _ _)
  · rw [List.drop_eq_nil_of_le (by omega)] at h
    obtain rfl := List.prefix_nil.mp h
    exact List.nil_prefix

theorem cbRunFrom_cons (st : CBState) (c : Str) (cs : List Str) :
    cbRunFrom st (c :: cs) =
      ((cbProcessChunk st c).1 ++ (cbRunFrom (cbProcessChunk st c).2 cs).1,
        (cbRunFrom (cbProcessChunk st c).2 cs).2) := by
  rcases hpc : cbProcessChunk st c with ⟨o, st1⟩
  rcases hr : cbRunFrom st1 cs with ⟨o', st2⟩
  conv_lhs => rw [cbRunFrom]
  simp [hpc, hr]

/-- While no fence has been seen, `CodeBlockParser` stays in the seeking
phase, accumulating everything and yielding nothing. -/
theorem cbRunFrom_seek :
    ∀ (chunks : List Str) (t : Str),
      firstOccur fence (t ++ chunks.flatten) = none →
      cbRunFrom ⟨t, false, false⟩ chunks = ([], ⟨t ++ chunks.flatten, false, false⟩) := by
  intro chunks
  induction chunks with
  | nil =>
    intro t h
    simp [cbRunFrom]
  | cons c cs ih =>
    intro t h
    have hflat : t ++ (c :: cs).flatten = (t ++ c) ++ cs.flatten := by
      rw [List.flatten_cons, List.append_assoc]
    rw [cbRunFrom_cons]
    by_cases hc : c = []
    · subst hc
      have hstep : cbProcessChunk ⟨t, false, false⟩ [] = ([], ⟨t, false, false⟩) := by
        unfold cbProcessChunk
        rw [if_pos rfl]
      rw [hstep]
      have hih := ih t (by simpa using h)
      simp [hih]
    · have hnone : firstOccur fence (t ++ c) = none := by
        rw [firstOccur_eq_none_iff]
        intro k hk
        have : fence <+: (t ++ (c :: cs).flatten).drop k := by
          apply occ_in_prefix _ hk
          rw [hflat]
          exact List.prefix_append _ _
        exact firstOccur_none h k this
      have hstep : cbProcessChunk ⟨t, false, false⟩ c =
          ([], ⟨t ++ c, false, false⟩) := by
        unfold cbProcessChunk
        rw [if_neg hc]
        simp only [Bool.false_eq_true, if_false]
        rw [hnone]
      rw [hstep]
      have hih := ih (t ++ c) (by rwa [hflat] at h)
      simp [hih, hflat]

/-- The extraction pipeline of `streamCodeBlock`: run the parser over all
chunks, then `finalize`. -/
theorem cbExtract_empty_of_no_fence (raws : List Str)
    (h : containsSub fence raws.flatten = false) : cbExtract raws = [] := by
  have hnone : firstOccur fence ([] ++ raws.flatten) = none := by
    rw [List.nil_append]
    unfold containsSub at h
    exact Option.not_isSome_iff_eq_none.mp (by rw [h]; simp)
  unfold cbExtract cbInit
  rw [cbRunFrom_seek raws [] hnone]
  rfl

/-- C9 (implicit): with non-empty prior code, if the provider response
contains no fenced-block content at all, the extraction yields no fragment
and `processStep` emits nothing — the stage's effective result is empty, and
the prior code is NOT restored as a default. -/
theorem processStep_empty_extraction (existing : Str) (raws : List Str)
    (hne : existing ≠ []) (h : containsSub fence raws.flatten = false) :
    processStep existing (cbExtract raws) = [] := by
  rw [cbExtract_empty_of_no_fence raws h]
  unfold processStep
  rw [if_neg hne]
  rfl

/-- Witness for C9: prior code `"old"`, a fence-free response
`["hello ", "world"]`. -/
theorem processStep_empty_extraction_witness :
    processStep ("old".toList) (cbExtract [("hello ".toList), ("world".toList)]) = [] :=
  processStep_empty_extraction ("old".toList) _ (by decide) (by decide)

/-! ## The delta broadcaster of `app.post('/api/generate')`
(src/unnamed/part_002, lines 152–223)

Each stage-progress chunk carries the stage's running total; the handler
wraps the first write of a stage in an opening marker, closes the previous
stage's block on a stage change, and otherwise writes only the suffix of the
running total beyond `lastContent`. -/

inductive Stage where
  | html
  | css
  | js
deriving DecidableEq, Repr

/-- The opening markers `codeBlockMarkers` of the handler. -/
def stageMarker : Stage → Str
  | .html => "```html\n".toList
  | .css => "```css\n".toList
  | .js => "```js\n".toList

/-- The closing marker `'\n```'`. -/
def closeMarkerStr : Str := "\n```".toList

/-- One wire event written by the handler.  Data events record the model tag
and, for stage writes, the stage and the content part of the payload
(the fixed markers are kept structurally separate, see `evtPayload`). -/
inductive WireEvt where
  | closeMark (model : Str)
  | openMark (model : Str) (stage : Stage) (content : Str)
  | delta (model : Str) (stage : Stage) (content : Str)
  | done (model : Str)
  | errEvt (model : Str) (msg : Str)
  | terminal
deriving DecidableEq, Repr

/-- The text written for each data event: an opening write is the stage
marker glued to the stage's first content, a delta is the raw suffix. -/
def evtPayload : WireEvt → Option Str
  | .closeMark _ => some closeMarkerStr
  | .openMark _ t c => some (stageMarker t ++ c)
  | .delta _ _ c => some c
  | _ => none

/-- The model a wire event is tagged with (`model` field of the payload);
the terminal `[DONE]` sentinel has none. -/
def evtOwner : WireEvt → Option Str
  | .closeMark m => some m
  | .openMark m _ _ => some m
  | .delta m _ _ => some m
  | .done m => some m
  | .errEvt m _ => some m
  | .terminal => none

/-- Whether an event is a stage-data write (not `done`, not an error, not the
terminal sentinel) belonging to model `m`. -/
def isDataOf (m : Str) : WireEvt → Bool
  | .closeMark m' => m' == m
  | .openMark m' _ _ => m' == m
  | .delta m' _ _ => m' == m
  | _ => false

/-- Per-model broadcaster state: `currentType` and `lastContent`. -/
structure BCState where
  currentType : Option Stage
  lastContent : Str
deriving DecidableEq, Repr

/-- One iteration of the handler's `for await` loop body. -/
def bStep (m : Str) (st : BCState) (ch : Stage × Str) : List WireEvt × BCState :=
  if st.currentType ≠ some ch.1 then
    ((match st.currentType with
      | some _ => [WireEvt.closeMark m]
      | none => []) ++ [WireEvt.openMark m ch.1 ch.2],
     ⟨some ch.1, ch.2⟩)
  else
    let nc := ch.2.drop st.lastContent.length
    if nc ≠ [] then ([WireEvt.delta m ch.1 nc], ⟨st.currentType, ch.2⟩)
    else ([], st)

/-- The handler's loop over the stream of `{type, content}` chunks. -/
def bRunFrom (m : Str) (st : BCState) : List (Stage × Str) → List WireEvt × BCState
  | [] => ([], st)
  | ch :: rest =>
      let (e, st1) := bStep m st ch
      let (e', st2) := bRunFrom m st1 rest
      (e ++ e', st2)

/-- After the loop: close the last open block and emit the model's `done`
event. -/
def bFinish (m : Str) (st : BCState) : List WireEvt :=
  (match st.currentType with
   | some _ => [WireEvt.closeMark m]
   | none => []) ++ [WireEvt.done m]

/-- The full per-model event sequence of a successful run. -/
def broadcast (m : Str) (chunks : List (Stage × Str)) : List WireEvt :=
  (bRunFrom m ⟨none, []⟩ chunks).1 ++ bFinish m (bRunFrom m ⟨none, []⟩ chunks).2

/-- The concatenated stage content carried by the events of stage `t`,
markers excluded. -/
def stageDeltas (t : Stage) (evts : List WireEvt) : Str :=
  (evts.filterMap fun e =>
    match e with
    | WireEvt.openMark _ t' c => if t' = t then some c else none
    | WireEvt.delta _ t' c => if t' = t then some c else none
    | _ => none).flatten

theorem stageDeltas_append (t : Stage) (a b : List WireEvt) :
    stageDeltas t (a ++ b) = stageDeltas t a ++ stageDeltas t b := by
  unfold stageDeltas
  rw [List.filterMap_append, List.flatten_append]

theorem bRunFrom_cons (m : Str) (st : BCState) (ch : Stage × Str)
    (rest : List (Stage × Str)) :
    bRunFrom m st (ch :: rest) =
      ((bStep m st ch).1 ++ (bRunFrom m (bStep m st ch).2 rest).1,
        (bRunFrom m (bStep m st ch).2 rest).2) := by
  rcases hpc : bStep m st ch with ⟨e, st1⟩
  rcases hr : bRunFrom m st1 rest with ⟨e', st2⟩
  conv_lhs => rw [bRunFrom]
  simp [hpc, hr]

theorem bRunFrom_append (m : Str) (st : BCState) (xs ys : List (Stage × Str)) :
    bRunFrom m st (xs ++ ys) =
      ((bRunFrom m st xs).1 ++ (bRunFrom m (bRunFrom m st xs).2 ys).1,
        (bRunFrom m (bRunFrom m st xs).2 ys).2) := by
  induction xs generalizing st with
  | nil => simp [bRunFrom]
  | cons ch rest ih =>
    rw [List.cons_append, bRunFrom_cons, bRunFrom_cons, ih]
    simp [List.append_assoc]

theorem prefix_append_drop {l₁ l₂ : Str} (h : l₁ <+: l₂) :
    l₁ ++ l₂.drop l₁.length = l₂ := by
  obtain ⟨r, rfl⟩ := h
  rw [List.drop_left]

/-- Inside one stage's group, with prefix-monotone running totals, the
broadcaster emits exactly the missing suffixes: `lastContent ++ deltas`
telescopes to the final total. -/
theorem bRunFrom_group (m : Str) (t : Stage) (cs : List Str) :
    ∀ c0 : Str, List.Chain' (· <+: ·) (c0 :: cs) →
      (∀ e ∈ (bRunFrom m ⟨some t, c0⟩ (cs.map (fun c => (t, c)))).1,
        ∃ d, e = WireEvt.delta m t d) ∧
      c0 ++ stageDeltas t (bRunFrom m ⟨some t, c0⟩ (cs.map (fun c => (t, c)))).1
        = cs.getLastD c0 ∧
      (bRunFrom m ⟨some t, c0⟩ (cs.map (fun c => (t, c)))).2
        = ⟨some t, cs.getLastD c0⟩ := by
  induction cs with
  | nil =>
    intro c0 _
    refine ⟨by simp [bRunFrom], ?_, by simp [bRunFrom]⟩
    simp [bRunFrom, stageDeltas]
  | cons c1 cs' ih =>
    intro c0 hch
    have hpre : c0 <+: c1 := (List.chain'_cons.mp hch).1
    have hch' : List.Chain' (· <+: ·) (c1 :: cs') := (List.chain'_cons.mp hch).2
    rw [List.map_cons, bRunFrom_cons]
    have hstep : bStep m ⟨some t, c0⟩ (t, c1) =
        (if c1.drop c0.length ≠ [] then
          ([WireEvt.delta m t (c1.drop c0.length)], ⟨some t, c1⟩)
         else ([], ⟨some t, c0⟩)) := by
      unfold bStep
      rw [if_neg (by simp)]
    by_cases hnc : c1.drop c0.length ≠ []
    · rw [hstep, if_pos hnc]
      obtain ⟨hall, hcat, hst⟩ := ih c1 hch'
      refine ⟨?_, ?_, by rw [List.getLastD_cons]; exact hst⟩
      · intro e he
        simp only [List.mem_append, List.mem_singleton] at he
        rcases he with rfl | he
        · exact ⟨_, rfl⟩
        · exact hall e (by simpa using he)
      · rw [stageDeltas_append]
        have hone : stageDeltas t [WireEvt.delta m t (c1.drop c0.length)]
            = c1.drop c0.length := by
          simp [stageDeltas]
        rw [hone, List.getLastD_cons, ← List.append_assoc, prefix_append_drop hpre]
        simpa using hcat
    · have hc1 : c1 = c0 := by
        rw [not_ne_iff] at hnc
        have hle : c1.length ≤ c0.length := by
          have := congrArg List.length hnc
          rw [List.length_drop] at this
          simp only [List.length_nil] at this
          omega
        exact (hpre.eq_of_length_le hle).symm
      rw [hstep, if_neg hnc]
      subst hc1
      obtain ⟨hall, hcat, hst⟩ := ih c1 hch'
      refine ⟨?_, ?_, by rw [List.getLastD_cons]; exact hst⟩
      · intro e he
        exact hall e (by simpa using he)
      · rw [List.getLastD_cons]
        simpa using hcat

/-- Entering a stage's group from a different current stage: one optional
closing marker, the opening write carrying the first running total, then pure
deltas; the stage-`t` content telescopes to the group's final total, and
other stages receive nothing. -/
theorem bRunFrom_fullGroup (m : Str) (t : Stage) (a0 : Str) (rest : List Str)
    (st0 : BCState) (hne : st0.currentType ≠ some t)
    (hch : List.Chain' (· <+: ·) (a0 :: rest)) :
    stageDeltas t (bRunFrom m st0 ((a0 :: rest).map (fun c => (t, c)))).1
        = rest.getLastD a0 ∧
      (∀ t', t' ≠ t →
        stageDeltas t' (bRunFrom m st0 ((a0 :: rest).map (fun c => (t, c)))).1 = []) ∧
      (bRunFrom m st0 ((a0 :: rest).map (fun c => (t, c)))).2
        = ⟨some t, rest.getLastD a0⟩ := by
  rw [List.map_cons, bRunFrom_cons]
  have hstep : bStep m st0 (t, a0) =
      ((match st0.currentType with
        | some _ => [WireEvt.closeMark m]
        | none => []) ++ [WireEvt.openMark m t a0], ⟨some t, a0⟩) := by
    unfold bStep
    rw [if_pos hne]
  rw [hstep]
  obtain ⟨hall, hcat, hst⟩ := bRunFrom_group m t rest a0 hch
  have hclose : ∀ t', stageDeltas t'
      (match st0.currentType with
       | some _ => [WireEvt.closeMark m]
       | none => []) = [] := by
    intro t'
    cases st0.currentType <;> simp [stageDeltas]
  refine ⟨?_, ?_, by simpa using hst⟩
  · rw [stageDeltas_append, stageDeltas_append, hclose]
    have hopen : stageDeltas t [WireEvt.openMark m t a0] = a0 := by
      simp [stageDeltas]
    rw [hopen]
    simpa [List.append_assoc] using hcat
  · intro t' ht'
    rw [stageDeltas_append, stageDeltas_append, hclose]
    have hopen : stageDeltas t' [WireEvt.openMark m t a0] = [] := by
      simp [stageDeltas, ht'.symm]
    rw [hopen]
    have : stageDeltas t' (bRunFrom m ⟨some t, a0⟩
        (rest.map (fun c => (t, c)))).1 = [] := by
      unfold stageDeltas
      rw [List.flatten_eq_nil_iff]
      intro x hx
      rw [List.mem_filterMap] at hx
      obtain ⟨e, he, hfe⟩ := hx
      obtain ⟨d, rfl⟩ := hall e he
      simp only at hfe
      rw [if_neg (fun h => ht' h.symm)] at hfe
      · exact absurd hfe (by simp)
    rw [this]
    simp

/-- C4: for a stream of running totals grouped into the three stages
(html, then css, then js), each group prefix-monotone as the accumulation
loop of `streamResponse` guarantees, the concatenation of the broadcaster's
stage deltas (markers excluded) equals each stage's final accumulated
content — no character re-sent, none skipped. -/
theorem broadcast_delta_complete (m : Str) (a0 b0 c0 : Str)
    (A B C : List Str)
    (hchA : List.Chain' (· <+: ·) (a0 :: A))
    (hchB : List.Chain' (· <+: ·) (b0 :: B))
    (hchC : List.Chain' (· <+: ·) (c0 :: C)) :
    stageDeltas Stage.html (broadcast m
        ((a0 :: A).map (fun c => (Stage.html, c)) ++
         (b0 :: B).map (fun c => (Stage.css, c)) ++
         (c0 :: C).map (fun c => (Stage.js, c)))) = A.getLastD a0 ∧
    stageDeltas Stage.css (broadcast m
        ((a0 :: A).map (fun c => (Stage.html, c)) ++
         (b0 :: B).map (fun c => (Stage.css, c)) ++
         (c0 :: C).map (fun c => (Stage.js, c)))) = B.getLastD b0 ∧
    stageDeltas Stage.js (broadcast m
        ((a0 :: A).map (fun c => (Stage.html, c)) ++
         (b0 :: B).map (fun c => (Stage.css, c)) ++
         (c0 :: C).map (fun c => (Stage.js, c)))) = C.getLastD c0 := by
  obtain ⟨hA1, hA2, hA3⟩ := bRunFrom_fullGroup m Stage.html a0 A ⟨none, []⟩
    (by simp) hchA
  unfold broadcast
  rw [bRunFrom_append, bRunFrom_append, hA3]
  obtain ⟨hB1, hB2, hB3⟩ := bRunFrom_fullGroup m Stage.css b0 B
    ⟨some Stage.html, A.getLastD a0⟩ (by simp) hchB
  rw [hB3]
  obtain ⟨hC1, hC2, hC3⟩ := bRunFrom_fullGroup m Stage.js c0 C
    ⟨some Stage.css, B.getLastD b0⟩ (by simp) hchC
  rw [hC3]
  have hfin : ∀ t', stageDeltas t'
      (bFinish m ⟨some Stage.js, C.getLastD c0⟩) = [] := by
    intro t'
    simp [bFinish, stageDeltas]
  constructor
  · rw [stageDeltas_append, stageDeltas_append, stageDeltas_append, hfin,
      hA1, hB2 _ (by simp), hC2 _ (by simp)]
    simp
  constructor
  · rw [stageDeltas_append, stageDeltas_append, stageDeltas_append, hfin,
      hB1, hA2 _ (by simp), hC2 _ (by simp)]
    simp
  · rw [stageDeltas_append, stageDeltas_append, stageDeltas_append, hfin,
      hC1, hA2 _ (by simp), hB2 _ (by simp)]
    simp

/-- Witness for C4: html totals `"h", "he"`, css totals `"c"`, js totals
`"j", "js"` — the deltas reassemble exactly `"he"`, `"c"`, `"js"`. -/
theorem broadcast_delta_complete_witness :
    stageDeltas Stage.html (broadcast ("M".toList)
        (([("h".toList), ("he".toList)]).map (fun c => (Stage.html, c)) ++
         ([("c".toList)]).map (fun c => (Stage.css, c)) ++
         ([("j".toList), ("js".toList)]).map (fun c => (Stage.js, c))))
        = ("he".toList) ∧
      stageDeltas Stage.css (broadcast ("M".toList)
        (([("h".toList), ("he".toList)]).map (fun c => (Stage.html, c)) ++
         ([("c".toList)]).map (fun c => (Stage.css, c)) ++
         ([("j".toList), ("js".toList)]).map (fun c => (Stage.js, c))))
        = ("c".toList) ∧
      stageDeltas Stage.js (broadcast ("M".toList)
        (([("h".toList), ("he".toList)]).map (fun c => (Stage.html, c)) ++
         ([("c".toList)]).map (fun c => (Stage.css, c)) ++
         ([("j".toList), ("js".toList)]).map (fun c => (Stage.js, c))))
        = ("js".toList) := by
  have h := broadcast_delta_complete ("M".toList) ("h".toList) ("c".toList)
    ("j".toList) [("he".toList)] [] [("js".toList)]
    (List.chain'_cons.mpr ⟨⟨("e".toList), by decide⟩, by simp⟩)
    (by simp)
    (List.chain'_cons.mpr ⟨⟨("s".toList), by decide⟩, by simp⟩)
  simpa using h

/-! ## Fault isolation across concurrent models
(src/unnamed/part_002, lines 152–223)

Each model's async task writes its own events; a provider error is caught by
the per-model `catch`, which writes exactly one error event for that model.
`Promise.all` waits for every task and then the single `[DONE]` terminal is
written.  Concurrent interleaving of the two tasks' writes is modelled by an
explicit interleaving relation. -/

/-- Whether `e` is an error event naming model `m`. -/
def isErrorOf (m : Str) : WireEvt → Bool
  | .errEvt m' _ => m' == m
  | _ => false

/-- Whether `e` is tagged with model `m`. -/
def ownedBy (m : Str) (e : WireEvt) : Bool := evtOwner e == some m

/-- One model's write sequence: on success the full broadcast ending in its
`done` event; if the provider stream raises (after `chunks` were delivered),
the successful writes so far followed by exactly one error event. -/
def modelTask (m : Str) (chunks : List (Stage × Str)) : Option Str → List WireEvt
  | some msg => (bRunFrom m ⟨none, []⟩ chunks).1 ++ [WireEvt.errEvt m msg]
  | none => broadcast m chunks

/-- `Interleave xs ys zs`: `zs` is an order-preserving merge of `xs` and
`ys` — the possible write orders of two concurrent tasks on one response
stream. -/
inductive Interleave : List WireEvt → List WireEvt → List WireEvt → Prop where
  | nil : Interleave [] [] []
  | left {x : WireEvt} {xs ys zs : List WireEvt} :
      Interleave xs ys zs → Interleave (x :: xs) ys (x :: zs)
  | right {y : WireEvt} {xs ys zs : List WireEvt} :
      Interleave xs ys zs → Interleave xs (y :: ys) (y :: zs)

theorem interleave_filter {p : WireEvt → Bool} :
    ∀ {xs ys zs : List WireEvt}, Interleave xs ys zs →
      (∀ x ∈ xs, p x = false) → (∀ y ∈ ys, p y = true) → zs.filter p = ys := by
  intro xs ys zs h
  induction h with
  | nil => intro _ _; rfl
  | left h ih =>
    intro hx hy
    simp only [List.filter_cons]
    rw [hx _ (List.mem_cons_self _ _)]
    simp only [Bool.false_eq_true, if_false]
    exact ih (fun a ha => hx a (List.mem_cons_of_mem _ ha)) hy
  | right h ih =>
    intro hx hy
    simp only [List.filter_cons]
    rw [hy _ (List.mem_cons_self _ _)]
    simp only [if_true]
    rw [ih hx (fun a ha => hy a (List.mem_cons_of_mem _ ha))]

theorem interleave_countP {p : WireEvt → Bool} :
    ∀ {xs ys zs : List WireEvt}, Interleave xs ys zs →
      zs.countP p = xs.countP p + ys.countP p := by
  intro xs ys zs h
  induction h with
  | nil => rfl
  | left h ih => rw [List.countP_cons, List.countP_cons, ih]; omega
  | right h ih => rw [List.countP_cons, List.countP_cons, ih]; omega

theorem bStep_data (m : Str) (st : BCState) (ch : Stage × Str) :
    ∀ e ∈ (bStep m st ch).1, isDataOf m e = true := by
  intro e he
  unfold bStep at he
  split at he
  · rw [List.mem_append] at he
    rcases he with he | he
    · cases hct : st.currentType <;> rw [hct] at he <;> simp at he
      rw [he]
      simp [isDataOf]
    · simp at he
      rw [he]
      simp [isDataOf]
  · simp only [] at he
    split at he
    · simp at he
      rw [he]
      simp [isDataOf]
    · simp at he

theorem bRunFrom_data (m : Str) (chunks : List (Stage × Str)) :
    ∀ st, ∀ e ∈ (bRunFrom m st chunks).1, isDataOf m e = true := by
  induction chunks with
  | nil => intro st e he; simp [bRunFrom] at he
  | cons ch rest ih =>
    intro st e he
    rw [bRunFrom_cons] at he
    simp only [List.mem_append] at he
    rcases he with he | he
    · exact bStep_data m st ch e he
    · exact ih _ e he

theorem broadcast_mem (m : Str) (chunks : List (Stage × Str)) :
    ∀ e ∈ broadcast m chunks, isDataOf m e = true ∨ e = WireEvt.done m := by
  intro e he
  unfold broadcast at he
  rw [List.mem_append] at he
  rcases he with he | he
  · exact Or.inl (bRunFrom_data m chunks _ e he)
  · unfold bFinish at he
    rw [List.mem_append] at he
    rcases he with he | he
    · left
      cases hct : (bRunFrom m ⟨none, []⟩ chunks).2.currentType <;>
        rw [hct] at he <;> simp at he
      rw [he]
      simp [isDataOf]
    · right
      simpa using he

theorem broadcast_getLast (m : Str) (chunks : List (Stage × Str)) :
    (broadcast m chunks).getLast? = some (WireEvt.done m) := by
  unfold broadcast bFinish
  rw [← List.append_assoc]
  exact List.getLast?_concat _

theorem isDataOf_facts {m : Str} {e : WireEvt} (h : isDataOf m e = true) :
    evtOwner e = some m ∧ (∀ a, isErrorOf a e = false) ∧
      e ≠ WireEvt.terminal ∧ (∀ a, e ≠ WireEvt.done a) := by
  cases e <;> simp [isDataOf] at h <;>
    simp [evtOwner, isErrorOf, h]

/-- C6: if model A's provider stream raises while model B succeeds, then in
every interleaved transcript of the two tasks followed by the terminal
sentinel: exactly one error event names A; the subsequence of B's events is
exactly B's full normal broadcast, still ending in B's `done`; and the
transcript ends with the single `[DONE]` terminal. -/
theorem generate_fault_isolation (a b msg : Str)
    (chA chB : List (Stage × Str)) (t tr : List WireEvt) (hab : a ≠ b)
    (hI : Interleave (modelTask a chA (some msg)) (modelTask b chB none) t)
    (htr : tr = t ++ [WireEvt.terminal]) :
    tr.countP (isErrorOf a) = 1 ∧
    tr.filter (ownedBy b) = modelTask b chB none ∧
    (tr.filter (ownedBy b)).getLast? = some (WireEvt.done b) ∧
    tr.getLast? = some WireEvt.terminal ∧
    tr.countP (fun e => e == WireEvt.terminal) = 1 := by
  have htaskA : ∀ e ∈ modelTask a chA (some msg),
      (isErrorOf a e = true ↔ e = WireEvt.errEvt a msg) ∧
      ownedBy b e = false ∧ e ≠ WireEvt.terminal := by
    intro e he
    unfold modelTask at he
    rw [List.mem_append] at he
    rcases he with he | he
    · obtain ⟨how, herr, hterm, _⟩ := isDataOf_facts (bRunFrom_data a chA _ e he)
      refine ⟨?_, ?_, hterm⟩
      · rw [herr a]
        constructor
        · intro h; exact absurd h (by simp)
        · intro h
          rw [h] at herr
          have := herr a
          simp [isErrorOf] at this
      · unfold ownedBy
        rw [how]
        simp [hab]
    · simp only [List.mem_singleton] at he
      subst he
      refine ⟨by simp [isErrorOf], ?_, by simp⟩
      unfold ownedBy
      simp [evtOwner, hab]
  have htaskB : ∀ e ∈ modelTask b chB none,
      isErrorOf a e = false ∧ ownedBy b e = true ∧ e ≠ WireEvt.terminal := by
    intro e he
    unfold modelTask at he
    rcases broadcast_mem b chB e he with hd | hdone
    · obtain ⟨how, herr, hterm, _⟩ := isDataOf_facts hd
      exact ⟨herr a, by unfold ownedBy; rw [how]; simp, hterm⟩
    · subst hdone
      exact ⟨by simp [isErrorOf], by unfold ownedBy; simp [evtOwner], by simp⟩
  subst htr
  refine ⟨?_, ?_, ?_, ?_, ?_⟩
  · rw [List.countP_append, interleave_countP hI]
    have hA : (modelTask a chA (some msg)).countP (isErrorOf a) = 1 := by
      unfold modelTask
      rw [List.countP_append]
      have h0 : (bRunFrom a ⟨none, []⟩ chA).1.countP (isErrorOf a) = 0 := by
        rw [List.countP_eq_zero]
        intro e he
        obtain ⟨_, herr, _, _⟩ := isDataOf_facts (bRunFrom_data a chA _ e he)
        simp [herr a]
      rw [h0]
      simp [List.countP_cons, isErrorOf]
    have hB : (modelTask b chB none).countP (isErrorOf a) = 0 := by
      rw [List.countP_eq_zero]
      intro e he
      simp [(htaskB e he).1]
    rw [hA, hB]
    simp [List.countP_cons, isErrorOf]
  · rw [List.filter_append]
    have h1 : List.filter (ownedBy b) [WireEvt.terminal] = [] := by
      simp [ownedBy, evtOwner]
    rw [h1, List.append_nil]
    exact interleave_filter hI (fun x hx => (htaskA x hx).2.1)
      (fun y hy => (htaskB y hy).2.1)
  · rw [List.filter_append]
    have h1 : List.filter (ownedBy b) [WireEvt.terminal] = [] := by
      simp [ownedBy, evtOwner]
    rw [h1, List.append_nil]
    rw [interleave_filter hI (fun x hx => (htaskA x hx).2.1)
      (fun y hy => (htaskB y hy).2.1)]
    unfold modelTask
    exact broadcast_getLast b chB
  · exact List.getLast?_concat _
  · rw [List.countP_append, interleave_countP hI]
    have hA : (modelTask a chA (some msg)).countP (fun e => e == WireEvt.terminal) = 0 := by
      rw [List.countP_eq_zero]
      intro e he
      simpa using (htaskA e he).2.2
    have hB : (modelTask b chB none).countP (fun e => e == WireEvt.terminal) = 0 := by
      rw [List.countP_eq_zero]
      intro e he
      simpa using (htaskB e he).2.2
    rw [hA, hB]
    simp [List.countP_cons]

theorem interleave_nil_left : ∀ ys : List WireEvt, Interleave [] ys ys
  | [] => .nil
  | _ :: ys => .right (interleave_nil_left ys)

/-- Witness for C6: model `"A"` fails immediately (`boom`), model `"B"`
streams one html total `"x"`; transcript = A's error first, then B's events,
then the terminal. -/
theorem generate_fault_isolation_witness :
    ((modelTask ("A".toList) [] (some ("boom".toList)) ++
        modelTask ("B".toList) [(Stage.html, ("x".toList))] none ++
        [WireEvt.terminal]).countP (isErrorOf ("A".toList)) = 1) ∧
      ((modelTask ("A".toList) [] (some ("boom".toList)) ++
        modelTask ("B".toList) [(Stage.html, ("x".toList))] none ++
        [WireEvt.terminal]).getLast? = some WireEvt.terminal) := by
  have hI : Interleave (modelTask ("A".toList) [] (some ("boom".toList)))
      (modelTask ("B".toList) [(Stage.html, ("x".toList))] none)
      (modelTask ("A".toList) [] (some ("boom".toList)) ++
        modelTask ("B".toList) [(Stage.html, ("x".toList))] none) := by
    rw [show modelTask ("A".toList) [] (some ("boom".toList)) =
      [WireEvt.errEvt ("A".toList) ("boom".toList)] from rfl]
    rw [List.singleton_append]
    exact Interleave.left (interleave_nil_left _)
  have h := generate_fault_isolation ("A".toList) ("B".toList) ("boom".toList)
    [] [(Stage.html, ("x".toList))]
    (modelTask ("A".toList) [] (some ("boom".toList)) ++
      modelTask ("B".toList) [(Stage.html, ("x".toList))] none)
    (modelTask ("A".toList) [] (some ("boom".toList)) ++
      modelTask ("B".toList) [(Stage.html, ("x".toList))] none ++
      [WireEvt.terminal])
    (by decide) hI rfl
  exact ⟨h.1, h.2.2.2.1⟩

/-! ## `StreamProcessor` (src/src/model/OpenAIProvider.js, lines 56–191)

The tag-filter configuration (`extractCodeBlock = false`, the only one the
repository constructs — providers use `new StreamProcessor()` and
`streamCodeBlock` uses `new StreamProcessor(false)`): `process` strips
`<think>…</think>` spans with bounded lookback buffering, `finalize` yields
nothing. -/

/-- The opening reasoning-span delimiter. -/
def openTag : Str := "<think>".toList

/-- The closing reasoning-span delimiter. -/
def closeTag : Str := "</think>".toList

structure SPState where
  isThinking : Bool
  buf : Str
deriving DecidableEq, Repr

/-- Initial `StreamProcessor` state. -/
def spInit : SPState := ⟨false, []⟩

/-- JavaScript `slice(-n)`: the last `n` characters. -/
def lastN (n : Nat) (s : Str) : Str := s.drop (s.length - n)

/-- The `while (content.length > 0)` state machine of `process` (lines
98–164), started on the lookback buffer glued to the incoming chunk; returns
the concatenated yields and the final state. -/
def spLoop (thinking : Bool) (content : Str) : Str × SPState :=
  if hc : content = [] then ([], ⟨thinking, []⟩)
  else
    if thinking then
      match h : firstOccur closeTag content with
      | some i => spLoop false (content.drop (i + 8))
      | none =>
          if content.length > 7 then ([], ⟨true, lastN 7 content⟩)
          else ([], ⟨true, content⟩)
    else
      match h : firstOccur openTag content with
      | some i =>
          ((content.take i) ++ (spLoop true (content.drop (i + 7))).1,
            (spLoop true (content.drop (i + 7))).2)
      | none =>
          if content.length ≥ 7 then
            match lastOccur ['<'] (content.drop (content.length - 6)) with
            | some j =>
                (content.take (content.length - 6 + j),
                  ⟨false, content.drop (content.length - 6 + j)⟩)
            | none => (content, ⟨false, []⟩)
          else
            if content.contains '<' then ([], ⟨false, content⟩)
            else (content, ⟨false, []⟩)
termination_by content.length
decreasing_by
  all_goals
    (rw [List.length_drop]
     have hne : content.length ≠ 0 := fun hh => hc (List.length_eq_zero.mp hh)
     omega)

/-- `StreamProcessor.process` on one chunk: an empty chunk returns at once
(leaving the buffer untouched); otherwise the buffer is prepended and the
loop runs. -/
def spProcess (st : SPState) (chunk : Str) : Str × SPState :=
  if chunk = [] then ([], st)
  else spLoop st.isThinking (st.buf ++ chunk)

/-- `StreamProcessor.finalize` in the tag-filter configuration: the
`extractCodeBlock` branch is disabled, so nothing is yielded in any state. -/
def spFinalize (_ : SPState) : List Str := []

/-- Feed a list of chunks through `process`, collecting concatenated
output. -/
def spRunFrom (st : SPState) : List Str → Str × SPState
  | [] => ([], st)
  | c :: cs =>
      let r := spProcess st c
      let r' := spRunFrom r.2 cs
      (r.1 ++ r'.1, r'.2)

/-- Run from the initial state. -/
def spRun (chunks : List Str) : Str × SPState := spRunFrom spInit chunks

/-- The ideal unbounded reasoning-span filter: drop every
`<think>…</think>` region (first-match semantics), keep everything else;
also reports whether the input ends inside an unterminated span. -/
def ideal (thinking : Bool) (s : Str) : Str × Bool :=
  if thinking then
    match h : firstOccur closeTag s with
    | some i => ideal false (s.drop (i + 8))
    | none => ([], true)
  else
    match h : firstOccur openTag s with
    | some i =>
        ((s.take i) ++ (ideal true (s.drop (i + 7))).1,
          (ideal true (s.drop (i + 7))).2)
    | none => (s, false)
termination_by s.length
decreasing_by
  all_goals first
  | (have h2 := occ_add_length_le closeTag (by decide) (firstOccur_some h)
     rw [show closeTag.length = 8 from rfl] at h2
     rw [List.length_drop]
     omega)
  | (have h2 := occ_add_length_le openTag (by decide) (firstOccur_some h)
     rw [show openTag.length = 7 from rfl] at h2
     rw [List.length_drop]
     omega)

theorem spLoop_nil (m : Bool) : spLoop m [] = ([], ⟨m, []⟩) := by
  unfold spLoop
  rw [dif_pos rfl]

theorem firstOccur_nil_of_ne {pat : Str} (hne : pat ≠ []) :
    firstOccur pat [] = none := by
  unfold firstOccur
  rw [if_neg]
  intro hp
  exact hne (List.prefix_nil.mp (by simpa using hp))

theorem spLoop_true_some {s : Str} {i : Nat}
    (h : firstOccur closeTag s = some i) :
    spLoop true s = spLoop false (s.drop (i + 8)) := by
  have hs : s ≠ [] := by
    intro hc
    subst hc
    rw [firstOccur_nil_of_ne (by decide)] at h
    exact absurd h (by simp)
  conv_lhs => unfold spLoop
  rw [dif_neg hs, if_pos rfl]
  split
  · next i' heq =>
    obtain rfl : i' = i := by rw [heq] at h; exact Option.some_injective _ h
    rfl
  · next heq => rw [heq] at h; exact absurd h (by simp)

theorem spLoop_true_none_long {s : Str} (h : firstOccur closeTag s = none)
    (hl : s.length > 7) : spLoop true s = ([], ⟨true, lastN 7 s⟩) := by
  have hs : s ≠ [] := by
    intro hc
    subst hc
    simp at hl
  unfold spLoop
  rw [dif_neg hs, if_pos rfl]
  split
  · next i' heq => rw [heq] at h; exact absurd h (by simp)
  · next heq => rw [if_pos hl]

theorem spLoop_true_none_short {s : Str} (h : firstOccur closeTag s = none)
    (hl : ¬ s.length > 7) : spLoop true s = ([], ⟨true, s⟩) := by
  by_cases hs : s = []
  · subst hs
    rw [spLoop_nil]
  · unfold spLoop
    rw [dif_neg hs, if_pos rfl]
    split
    · next i' heq => rw [heq] at h; exact absurd h (by simp)
    · next heq => rw [if_neg hl]

theorem spLoop_false_some {s : Str} {i : Nat}
    (h : firstOccur openTag s = some i) :
    spLoop false s =
      ((s.take i) ++ (spLoop true (s.drop (i + 7))).1,
        (spLoop true (s.drop (i + 7))).2) := by
  have hs : s ≠ [] := by
    intro hc
    subst hc
    rw [firstOccur_nil_of_ne (by decide)] at h
    exact absurd h (by simp)
  conv_lhs => unfold spLoop
  rw [dif_neg hs, if_neg (by simp)]
  split
  · next i' heq =>
    obtain rfl : i' = i := by rw [heq] at h; exact Option.some_injective _ h
    rfl
  · next heq => rw [heq] at h; exact absurd h (by simp)

theorem spLoop_false_long_some {s : Str} {j : Nat}
    (h : firstOccur openTag s = none) (hl : s.length ≥ 7)
    (hj : lastOccur ['<'] (s.drop (s.length - 6)) = some j) :
    spLoop false s =
      (s.take (s.length - 6 + j), ⟨false, s.drop (s.length - 6 + j)⟩) := by
  have hs : s ≠ [] := by
    intro hc
    subst hc
    simp at hl
  unfold spLoop
  rw [dif_neg hs, if_neg (by simp)]
  split
  · next i' heq => rw [heq] at h; exact absurd h (by simp)
  · next heq =>
    rw [if_pos hl]
    split
    · next j' heq2 =>
      obtain rfl : j' = j := by rw [heq2] at hj; exact Option.some_injective _ hj
      rfl
    · next heq2 => rw [heq2] at hj; exact absurd hj (by simp)

theorem spLoop_false_long_none {s : Str}
    (h : firstOccur openTag s = none) (hl : s.length ≥ 7)
    (hj : lastOccur ['<'] (s.drop (s.length - 6)) = none) :
    spLoop false s = (s, ⟨false, []⟩) := by
  have hs : s ≠ [] := by
    intro hc
    subst hc
    simp at hl
  unfold spLoop
  rw [dif_neg hs, if_neg (by simp)]
  split
  · next i' heq => rw [heq] at h; exact absurd h (by simp)
  · next heq =>
    rw [if_pos hl]
    split
    · next j' heq2 => rw [heq2] at hj; exact absurd hj (by simp)
    · next heq2 => rfl

theorem spLoop_false_short_has {s : Str}
    (h : firstOccur openTag s = none) (hl : ¬ s.length ≥ 7)
    (hc : s.contains '<') : spLoop false s = ([], ⟨false, s⟩) := by
  have hs : s ≠ [] := by
    intro he
    subst he
    simp at hc
  unfold spLoop
  rw [dif_neg hs, if_neg (by simp)]
  split
  · next i' heq => rw [heq] at h; exact absurd h (by simp)
  · next heq => rw [if_neg hl, if_pos hc]

theorem spLoop_false_short_no {s : Str}
    (h : firstOccur openTag s = none) (hl : ¬ s.length ≥ 7)
    (hc : ¬ s.contains '<') : spLoop false s = (s, ⟨false, []⟩) := by
  by_cases hs : s = []
  · subst hs
    rw [spLoop_nil]
  · unfold spLoop
    rw [dif_neg hs, if_neg (by simp)]
    split
    · next i' heq => rw [heq] at h; exact absurd h (by simp)
    · next heq => rw [if_neg hl, if_neg hc]

theorem ideal_true_some {s : Str} {i : Nat}
    (h : firstOccur closeTag s = some i) :
    ideal true s = ideal false (s.drop (i + 8)) := by
  conv_lhs => unfold ideal
  rw [if_pos rfl]
  split
  · next i' heq =>
    obtain rfl : i' = i := by rw [heq] at h; exact Option.some_injective _ h
    rfl
  · next heq => rw [heq] at h; exact absurd h (by simp)

theorem ideal_true_none {s : Str} (h : firstOccur closeTag s = none) :
    ideal true s = ([], true) := by
  unfold ideal
  rw [if_pos rfl]
  split
  · next i' heq => rw [heq] at h; exact absurd h (by simp)
  · next heq => rfl

theorem ideal_false_some {s : Str} {i : Nat}
    (h : firstOccur openTag s = some i) :
    ideal false s =
      ((s.take i) ++ (ideal true (s.drop (i + 7))).1,
        (ideal true (s.drop (i + 7))).2) := by
  conv_lhs => unfold ideal
  rw [if_neg (by simp)]
  split
  · next i' heq =>
    obtain rfl : i' = i := by rw [heq] at h; exact Option.some_injective _ h
    rfl
  · next heq => rw [heq] at h; exact absurd h (by simp)

theorem ideal_false_none {s : Str} (h : firstOccur openTag s = none) :
    ideal false s = (s, false) := by
  unfold ideal
  rw [if_neg (by simp)]
  split
  · next i' heq => rw [heq] at h; exact absurd h (by simp)
  · next heq => rfl

theorem prefix_getElem? {x y : Str} (h : x <+: y) {n : Nat} (hn : n < x.length) :
    y[n]? = x[n]? := by
  obtain ⟨r, rfl⟩ := h
  rw [List.getElem?_append_left hn]

theorem occ_char_at {pat Y : Str} {k m : Nat} (hc : pat <+: Y.drop k)
    (hm : m < pat.length) : Y[k + m]? = pat[m]? := by
  have h1 : (Y.drop k)[m]? = pat[m]? := prefix_getElem? hc hm
  rw [List.getElem?_drop] at h1
  exact h1

/-- In `<think>` only index 0 holds `'<'`. -/
theorem openTag_lt_only_zero :
    ∀ m, m < openTag.length → openTag.getD m ' ' = '<' → m = 0 := by decide

theorem singleton_prefix_drop' {c : Char} {s : Str} {k : Nat} :
    ([c] <+: s.drop k) ↔ s[k]? = some c := by
  rw [singleton_prefix_drop]
  constructor
  · rintro ⟨hk, hc⟩
    rw [List.getElem?_eq_getElem hk, hc]
  · intro h
    have hk : k < s.length := by
      by_contra hno
      rw [List.getElem?_eq_none (by omega)] at h
      exact absurd h (by simp)
    refine ⟨hk, ?_⟩
    rw [List.getElem?_eq_getElem hk] at h
    exact Option.some_injective _ h

theorem openTag_no_occ_inside {x z : Str} (hx : firstOccur openTag x = none) :
    ∀ k, k + 7 ≤ x.length → ¬ openTag <+: (x ++ z).drop k := by
  intro k hk hc
  rw [List.drop_append_of_le_length (by omega)] at hc
  rw [prefix_append_iff_of_le (by
    rw [List.length_drop, show openTag.length = 7 from rfl]; omega)] at hc
  exact firstOccur_none hx k hc

theorem openTag_straddle_char {x z : Str} {k : Nat} (hk : k < x.length)
    (hc : openTag <+: (x ++ z).drop k) : x[k]? = some '<' := by
  have h0 := occ_char_at hc (m := 0) (by decide)
  rw [Nat.add_zero, List.getElem?_append_left hk,
    show (openTag[0]? : Option Char) = some '<' from rfl] at h0
  exact h0

/-- With no complete `<think>` in `x` and the withheld suffix starting at the
last `'<'` of the final six-character window, no occurrence of `<think>` in
any extension starts before the withheld suffix. -/
theorem no_occ_long_some {x z : Str} {j : Nat}
    (hx : firstOccur openTag x = none) (hl : 7 ≤ x.length)
    (hj : lastOccur ['<'] (x.drop (x.length - 6)) = some j) :
    ∀ k < x.length - 6 + j, ¬ openTag <+: (x ++ z).drop k := by
  obtain ⟨hjocc, hjmax⟩ := lastOccur_some (by decide) hj
  have hjlen : j + 1 ≤ 6 := by
    have := occ_add_length_le ['<'] (by decide) hjocc
    rw [List.length_drop] at this
    simp only [List.length_singleton] at this
    omega
  intro k hk hc
  by_cases hin : k + 7 ≤ x.length
  · exact openTag_no_occ_inside hx k hin hc
  · have hkx : k < x.length := by omega
    have hk0 : x[k]? = some '<' := openTag_straddle_char hkx hc
    have hkr : ['<'] <+: (x.drop (x.length - 6)).drop (k - (x.length - 6)) := by
      rw [singleton_prefix_drop', List.getElem?_drop,
        show x.length - 6 + (k - (x.length - 6)) = k from by omega]
      exact hk0
    have hler := hjmax _ hkr
    have hm1 : 1 ≤ x.length - 6 + j - k := by omega
    have hm7 : x.length - 6 + j - k < 7 := by omega
    have hchar := occ_char_at hc (m := x.length - 6 + j - k)
      (by rw [show openTag.length = 7 from rfl]; omega)
    rw [show k + (x.length - 6 + j - k) = x.length - 6 + j from by omega] at hchar
    have hPx : x.length - 6 + j < x.length := by omega
    rw [List.getElem?_append_left hPx] at hchar
    have hbj : x[x.length - 6 + j]? = some '<' := by
      have := singleton_prefix_drop'.mp hjocc
      rw [List.getElem?_drop] at this
      exact this
    rw [hbj] at hchar
    have hgd : openTag.getD (x.length - 6 + j - k) ' ' = '<' := by
      rw [List.getD_eq_getElem?_getD, ← hchar]
      rfl
    have := openTag_lt_only_zero _ (by rw [show openTag.length = 7 from rfl]; omega) hgd
    omega

/-- With no complete `<think>` in `x` and no `'<'` in the final
six-character window, no `<think>` occurrence in any extension starts
inside `x`. -/
theorem no_occ_long_none {x z : Str}
    (hx : firstOccur openTag x = none) (hl : 7 ≤ x.length)
    (hj : lastOccur ['<'] (x.drop (x.length - 6)) = none) :
    ∀ k < x.length, ¬ openTag <+: (x ++ z).drop k := by
  intro k hk hc
  by_cases hin : k + 7 ≤ x.length
  · exact openTag_no_occ_inside hx k hin hc
  · have hk0 := openTag_straddle_char hk hc
    have : ['<'] <+: (x.drop (x.length - 6)).drop (k - (x.length - 6)) := by
      rw [singleton_prefix_drop', List.getElem?_drop,
        show x.length - 6 + (k - (x.length - 6)) = k from by omega]
      exact hk0
    exact lastOccur_none hj _ this

/-- A short chunk with no `'<'` can host no `<think>` occurrence start. -/
theorem no_occ_short_no {x z : Str} (hc : ¬ x.contains '<') :
    ∀ k < x.length, ¬ openTag <+: (x ++ z).drop k := by
  intro k hk hcc
  have h0 := openTag_straddle_char hk hcc
  exact hc (List.contains_iff_exists_mem_beq.mpr
    ⟨'<', List.getElem?_mem h0, by simp⟩)

/-- A region free of `<think>` occurrence starts is emitted unchanged by the
ideal filter. -/
theorem ideal_emit_prefix (o rest : Str)
    (h : ∀ k < o.length, ¬ openTag <+: (o ++ rest).drop k) :
    ideal false (o ++ rest) = (o ++ (ideal false rest).1, (ideal false rest).2) := by
  have hshift := firstOccur_shift (s := o ++ rest)
    (d := o.length) h
  rw [List.drop_left] at hshift
  cases hr : firstOccur openTag rest with
  | none =>
    rw [hr] at hshift
    simp only [Option.map_none'] at hshift
    rw [ideal_false_none hshift, ideal_false_none hr]
  | some i =>
    rw [hr] at hshift
    simp only [Option.map_some'] at hshift
    rw [ideal_false_some hshift, ideal_false_some hr]
    have htake : (o ++ rest).take (i + o.length) = o ++ rest.take i := by
      rw [show i + o.length = o.length + i from by omega, List.take_add,
        List.take_left, List.drop_left]
    have hdrop : (o ++ rest).drop (i + o.length + 7) = rest.drop (i + 7) := by
      rw [show i + o.length + 7 = o.length + (i + 7) from by omega,
        List.drop_append]
    rw [htake, hdrop, List.append_assoc]

/-- `firstOccur` in an extension of a pattern-free region shifts to the
final lookback window. -/
theorem firstOccur_window {pat x z : Str} (hne : pat ≠ [])
    (hx : firstOccur pat x = none) :
    firstOccur pat (x ++ z) =
      (firstOccur pat ((x.drop (x.length - (pat.length - 1))) ++ z)).map
        (· + (x.length - (pat.length - 1))) := by
  have hplen : 1 ≤ pat.length := List.length_pos.mpr hne
  have hd : ∀ k < x.length - (pat.length - 1), ¬ pat <+: (x ++ z).drop k := by
    intro k hk hc
    rw [List.drop_append_of_le_length (by omega)] at hc
    rw [prefix_append_iff_of_le (by rw [List.length_drop]; omega)] at hc
    exact firstOccur_none hx k hc
  have := firstOccur_shift (s := x ++ z)
    (d := x.length - (pat.length - 1)) hd
  rw [this, List.drop_append_of_le_length (by omega)]

/-- The central simulation lemma: one `spLoop` pass followed by the ideal
filter on `buffer ++ z` computes the ideal filter of `content ++ z`. -/
theorem spLoop_ideal_aux : ∀ (n : Nat) (m : Bool) (content z : Str),
    content.length ≤ n →
    ideal m (content ++ z) =
      ((spLoop m content).1 ++
        (ideal (spLoop m content).2.isThinking ((spLoop m content).2.buf ++ z)).1,
        (ideal (spLoop m content).2.isThinking ((spLoop m content).2.buf ++ z)).2) := by
  intro n
  induction n with
  | zero =>
    intro m content z hlen
    obtain rfl : content = [] := List.length_eq_zero.mp (by omega)
    rw [spLoop_nil]
    simp
  | succ n ih =>
    intro m content z hlen
    by_cases hcnil : content = []
    · subst hcnil
      rw [spLoop_nil]
      simp
    · cases m
      · -- Normal state
        cases hf : firstOccur openTag content with
        | some i =>
          have hlen7 : i + 7 ≤ content.length := by
            have := occ_add_length_le openTag (by decide)
              (firstOccur_some hf)
            rw [show openTag.length = 7 from rfl] at this
            exact this
          rw [spLoop_false_some hf]
          rw [ideal_false_some (firstOccur_append_some (by decide) hf)]
          rw [List.take_append_of_le_length (by omega),
            List.drop_append_of_le_length (by omega)]
          have hrec := ih true (content.drop (i + 7)) z
            (by rw [List.length_drop]; omega)
          rw [hrec]
          simp [List.append_assoc]
        | none =>
          by_cases hlong : content.length ≥ 7
          · cases hlast : lastOccur ['<'] (content.drop (content.length - 6)) with
            | some j =>
              rw [spLoop_false_long_some hf hlong hlast]
              have hocc := no_occ_long_some (z := z) hf hlong hlast
              have hjle : content.length - 6 + j ≤ content.length := by
                obtain ⟨hjocc, _⟩ := lastOccur_some (by decide) hlast
                have := occ_add_length_le ['<'] (by decide) hjocc
                rw [List.length_drop] at this
                simp only [List.length_singleton] at this
                omega
              have heq := ideal_emit_prefix
                (content.take (content.length - 6 + j))
                (content.drop (content.length - 6 + j) ++ z) ?_
              · rw [← List.append_assoc, List.take_append_drop] at heq
                rw [heq]
              · intro k hk
                rw [← List.append_assoc, List.take_append_drop]
                rw [List.length_take] at hk
                exact hocc k (by omega)
            | none =>
              rw [spLoop_false_long_none hf hlong hlast]
              have hocc := no_occ_long_none (z := z) hf hlong hlast
              have heq := ideal_emit_prefix content z hocc
              rw [heq]
              simp
          · by_cases hcont : content.contains '<'
            · rw [spLoop_false_short_has hf hlong hcont]
              simp
            · rw [spLoop_false_short_no hf hlong hcont]
              have heq := ideal_emit_prefix content z (no_occ_short_no hcont)
              rw [heq]
              simp
      · -- Thinking state
        cases hf : firstOccur closeTag content with
        | some i =>
          have hlen8 : i + 8 ≤ content.length := by
            have := occ_add_length_le closeTag (by decide)
              (firstOccur_some hf)
            rw [show closeTag.length = 8 from rfl] at this
            exact this
          rw [spLoop_true_some hf]
          rw [ideal_true_some (firstOccur_append_some (by decide) hf)]
          rw [List.drop_append_of_le_length (by omega)]
          exact ih false (content.drop (i + 8)) z (by rw [List.length_drop]; omega)
        | none =>
          by_cases hlong : content.length > 7
          · rw [spLoop_true_none_long hf hlong]
            simp only [lastN]
            have hwin := firstOccur_window (by decide) hf (z := z)
            rw [show closeTag.length - 1 = 7 from rfl] at hwin
            cases hr : firstOccur closeTag
                (content.drop (content.length - 7) ++ z) with
            | none =>
              rw [hr] at hwin
              simp only [Option.map_none'] at hwin
              rw [ideal_true_none hwin, ideal_true_none hr]
              rfl
            | some i' =>
              rw [hr] at hwin
              simp only [Option.map_some'] at hwin
              rw [ideal_true_some hwin, ideal_true_some hr]
              have hdrop : (content ++ z).drop (i' + (content.length - 7) + 8) =
                  (content.drop (content.length - 7) ++ z).drop (i' + 8) := by
                rw [show i' + (content.length - 7) + 8 =
                  (content.length - 7) + (i' + 8) from by omega, ← List.drop_drop,
                  List.drop_append_of_le_length (by omega)]
              rw [hdrop]
              simp
          · rw [spLoop_true_none_short hf hlong]
            simp

theorem spLoop_ideal (m : Bool) (content z : Str) :
    ideal m (content ++ z) =
      ((spLoop m content).1 ++
        (ideal (spLoop m content).2.isThinking ((spLoop m content).2.buf ++ z)).1,
        (ideal (spLoop m content).2.isThinking ((spLoop m content).2.buf ++ z)).2) :=
  spLoop_ideal_aux content.length m content z (le_refl _)

/-- The running invariant: output so far plus the pending lookback buffer
ideally-filter to the input consumed so far, for every continuation `z`. -/
def IdealInv (t out : Str) (st : SPState) : Prop :=
  ∀ z, ideal false (t ++ z) =
    (out ++ (ideal st.isThinking (st.buf ++ z)).1,
      (ideal st.isThinking (st.buf ++ z)).2)

theorem idealInv_init : IdealInv [] [] spInit := by
  intro z
  simp [spInit]

theorem idealInv_step {t out : Str} {st : SPState} (h : IdealInv t out st)
    (c : Str) :
    IdealInv (t ++ c) (out ++ (spProcess st c).1) (spProcess st c).2 := by
  intro z
  by_cases hc : c = []
  · subst hc
    have hstep : spProcess st [] = ([], st) := by
      unfold spProcess
      rw [if_pos rfl]
    rw [hstep]
    simpa using h z
  · have hstep : spProcess st c = spLoop st.isThinking (st.buf ++ c) := by
      unfold spProcess
      rw [if_neg hc]
    rw [hstep]
    have h1 := h (c ++ z)
    have h2 := spLoop_ideal st.isThinking (st.buf ++ c) z
    rw [List.append_assoc] at h2
    rw [h2] at h1
    rw [List.append_assoc t c z, h1]
    simp [List.append_assoc]

theorem spRunFrom_cons (st : SPState) (c : Str) (cs : List Str) :
    spRunFrom st (c :: cs) =
      ((spProcess st c).1 ++ (spRunFrom (spProcess st c).2 cs).1,
        (spRunFrom (spProcess st c).2 cs).2) := by
  rcases hpc : spProcess st c with ⟨o, st1⟩
  rcases hr : spRunFrom st1 cs with ⟨o2, st2⟩
  conv_lhs => rw [spRunFrom]
  simp [hpc, hr]

theorem spRunFrom_inv : ∀ (chunks : List Str) (t out : Str) (st : SPState),
    IdealInv t out st →
    IdealInv (t ++ chunks.flatten) (out ++ (spRunFrom st chunks).1)
      (spRunFrom st chunks).2 := by
  intro chunks
  induction chunks with
  | nil =>
    intro t out st h z
    simpa [spRunFrom] using h z
  | cons c cs ih =>
    intro t out st h
    rw [spRunFrom_cons]
    have h2 := ih (t ++ c) (out ++ (spProcess st c).1) (spProcess st c).2
      (idealInv_step h c)
    intro z
    simpa [List.flatten_cons, List.append_assoc] using h2 z

/-- The unconditional characterisation: for every chunking, the ideal filter
of the full input equals the machine's total output extended by the ideal
filtering of the final lookback buffer. -/
theorem spRun_ideal (chunks : List Str) :
    ideal false chunks.flatten =
      ((spRun chunks).1 ++
        (ideal (spRun chunks).2.isThinking (spRun chunks).2.buf).1,
        (ideal (spRun chunks).2.isThinking (spRun chunks).2.buf).2) := by
  have h := spRunFrom_inv chunks [] [] spInit idealInv_init []
  simpa [spRun] using h

/-- Bounded lookback: thinking keeps at most 7 characters, Normal at most
6. -/
def BufOK (st : SPState) : Prop :=
  (st.isThinking = true → st.buf.length ≤ 7) ∧
    (st.isThinking = false → st.buf.length ≤ 6)

theorem spLoop_bufOK : ∀ (n : Nat) (m : Bool) (content : Str),
    content.length ≤ n → BufOK (spLoop m content).2 := by
  intro n
  induction n with
  | zero =>
    intro m content hlen
    obtain rfl : content = [] := List.length_eq_zero.mp (by omega)
    rw [spLoop_nil]
    exact ⟨fun _ => by simp, fun _ => by simp⟩
  | succ n ih =>
    intro m content hlen
    by_cases hcnil : content = []
    · subst hcnil
      rw [spLoop_nil]
      exact ⟨fun _ => by simp, fun _ => by simp⟩
    · cases m
      · cases hf : firstOccur openTag content with
        | some i =>
          have hlen7 : i + 7 ≤ content.length := by
            have := occ_add_length_le openTag (by decide)
              (firstOccur_some hf)
            rw [show openTag.length = 7 from rfl] at this
            exact this
          rw [spLoop_false_some hf]
          exact ih true (content.drop (i + 7)) (by rw [List.length_drop]; omega)
        | none =>
          by_cases hlong : content.length ≥ 7
          · cases hlast : lastOccur ['<'] (content.drop (content.length - 6)) with
            | some j =>
              rw [spLoop_false_long_some hf hlong hlast]
              refine ⟨fun hh => by simp at hh, fun _ => ?_⟩
              simp only [List.length_drop]
              omega
            | none =>
              rw [spLoop_false_long_none hf hlong hlast]
              exact ⟨fun hh => by simp at hh, fun _ => by simp⟩
          · by_cases hcont : content.contains '<'
            · rw [spLoop_false_short_has hf hlong hcont]
              refine ⟨fun hh => by simp at hh, fun _ => ?_⟩
              show content.length ≤ 6
              omega
            · rw [spLoop_false_short_no hf hlong hcont]
              exact ⟨fun hh => by simp at hh, fun _ => by simp⟩
      · cases hf : firstOccur closeTag content with
        | some i =>
          have hlen8 : i + 8 ≤ content.length := by
            have := occ_add_length_le closeTag (by decide)
              (firstOccur_some hf)
            rw [show closeTag.length = 8 from rfl] at this
            exact this
          rw [spLoop_true_some hf]
          exact ih false (content.drop (i + 8)) (by rw [List.length_drop]; omega)
        | none =>
          by_cases hlong : content.length > 7
          · rw [spLoop_true_none_long hf hlong]
            refine ⟨fun _ => ?_, fun hh => by simp at hh⟩
            simp only [lastN, List.length_drop]
            omega
          · rw [spLoop_true_none_short hf hlong]
            refine ⟨fun _ => ?_, fun hh => by simp at hh⟩
            show content.length ≤ 7
            omega

theorem spProcess_bufOK {st : SPState} (h : BufOK st) (c : Str) :
    BufOK (spProcess st c).2 := by
  by_cases hc : c = []
  · unfold spProcess
    rw [if_pos hc]
    exact h
  · unfold spProcess
    rw [if_neg hc]
    exact spLoop_bufOK (st.buf ++ c).length st.isThinking _ (le_refl _)

theorem spRun_bufOK (chunks : List Str) : BufOK (spRun chunks).2 := by
  unfold spRun
  suffices h : ∀ st, BufOK st → BufOK (spRunFrom st chunks).2 from
    h spInit ⟨fun _ => by simp [spInit], fun _ => by simp [spInit]⟩
  induction chunks with
  | nil => intro st h; exact h
  | cons c cs ih =>
    intro st h
    rw [spRunFrom_cons]
    exact ih _ (spProcess_bufOK h c)

/-! Well-formed reasoning-span structure: a string is an alternation of
normal text and `<think>…</think>` spans.  Texts contain no `<think>`
occurrence (else they would open a span earlier) and interiors contain no
`</think>` (else the span would close earlier). -/

/-- Build the raw string from (text, span-interior) segments and a trailing
text. -/
def segBuild : List (Str × Str) → Str → Str
  | [], tail => tail
  | (t, i) :: rest, tail =>
      t ++ (openTag ++ (i ++ (closeTag ++ segBuild rest tail)))

/-- The string with every reasoning span (delimiters and contents)
removed. -/
def spanFree : List (Str × Str) → Str → Str
  | [], tail => tail
  | (t, _) :: rest, tail => t ++ spanFree rest tail

/-- Well-formedness of the segment structure. -/
def segsOK : List (Str × Str) → Str → Bool
  | [], tail => !(containsSub openTag tail)
  | (t, i) :: rest, tail =>
      !(containsSub openTag t) && !(containsSub closeTag i) && segsOK rest tail

theorem containsSub_false {pat s : Str} (h : containsSub pat s = false) :
    firstOccur pat s = none := by
  cases hf : firstOccur pat s with
  | none => rfl
  | some i =>
    unfold containsSub at h
    rw [hf] at h
    simp at h

/-- A delimiter placed after a delimiter-free region is found exactly at the
junction, provided the delimiter's first character recurs nowhere in it. -/
theorem firstOccur_junction {pat t rest : Str} (hne : pat ≠ [])
    (ht : firstOccur pat t = none)
    (hdist : ∀ m, m < pat.length → 0 < m → pat.getD m ' ' ≠ pat.getD 0 ' ') :
    firstOccur pat (t ++ (pat ++ rest)) = some t.length := by
  apply firstOccur_of_min
  · rw [List.drop_left]
    exact List.prefix_append _ _
  · intro k hk hcc
    by_cases hin : k + pat.length ≤ t.length
    · rw [List.drop_append_of_le_length (by omega)] at hcc
      rw [prefix_append_iff_of_le (by rw [List.length_drop]; omega)] at hcc
      exact firstOccur_none ht k hcc
    · have hplen : 1 ≤ pat.length := List.length_pos.mpr hne
      have hm1 : 0 < t.length - k := by omega
      have hm2 : t.length - k < pat.length := by omega
      have hchar := occ_char_at hcc (m := t.length - k) hm2
      rw [show k + (t.length - k) = t.length from by omega] at hchar
      have hj : (t ++ (pat ++ rest))[t.length]? = pat[0]? := by
        rw [List.getElem?_append_right (le_refl _), Nat.sub_self,
          List.getElem?_append_left (by omega)]
      rw [hj] at hchar
      refine hdist (t.length - k) hm2 hm1 ?_
      rw [List.getD_eq_getElem?_getD, List.getD_eq_getElem?_getD, ← hchar]

theorem openTag_hdist :
    ∀ m, m < openTag.length → 0 < m →
      openTag.getD m ' ' ≠ openTag.getD 0 ' ' := by decide

theorem closeTag_hdist :
    ∀ m, m < closeTag.length → 0 < m →
      closeTag.getD m ' ' ≠ closeTag.getD 0 ' ' := by decide

/-- The ideal filter on a well-formed string removes exactly the spans. -/
theorem ideal_wf : ∀ (segs : List (Str × Str)) (tail : Str),
    segsOK segs tail = true →
    ideal false (segBuild segs tail) = (spanFree segs tail, false) := by
  intro segs
  induction segs with
  | nil =>
    intro tail h
    have hnone : firstOccur openTag tail = none := by
      apply containsSub_false
      simpa [segsOK] using h
    rw [show segBuild [] tail = tail from rfl, ideal_false_none hnone]
    rfl
  | cons ti rest ih =>
    intro tail h
    obtain ⟨t, i⟩ := ti
    have h' : (containsSub openTag t = false ∧ containsSub closeTag i = false) ∧
        segsOK rest tail = true := by
      simpa [segsOK, Bool.and_eq_true] using h
    obtain ⟨⟨h1, h2⟩, h3⟩ := h'
    show ideal false (t ++ (openTag ++ (i ++ (closeTag ++ segBuild rest tail))))
      = _
    rw [ideal_false_some (firstOccur_junction (by decide)
      (containsSub_false h1) openTag_hdist)]
    rw [List.take_left]
    rw [show t.length + 7 = t.length + 7 from rfl, List.drop_append,
      List.drop_left' (show openTag.length = 7 from rfl)]
    rw [ideal_true_some (firstOccur_junction (by decide)
      (containsSub_false h2) closeTag_hdist)]
    rw [List.drop_append, List.drop_left' (show closeTag.length = 8 from rfl)]
    rw [ih tail h3]
    rfl

/-- C2 amended: for any string made of well-formed reasoning spans, split
into chunks at any boundaries, the machine ends outside a span and its
concatenated output followed by the final withheld lookback tail equals the
string with every span removed; `finalize` itself emits nothing, so the
emitted output alone equals the removal result exactly when the final
lookback tail is empty. -/
theorem spRun_chunking_invariance (segs : List (Str × Str)) (tail : Str)
    (chunks : List Str) (hok : segsOK segs tail = true)
    (hchunks : chunks.flatten = segBuild segs tail) :
    (spRun chunks).2.isThinking = false ∧
      (spRun chunks).1 ++ (spRun chunks).2.buf = spanFree segs tail ∧
      spFinalize (spRun chunks).2 = [] := by
  have hgrand := spRun_ideal chunks
  rw [hchunks, ideal_wf segs tail hok] at hgrand
  have hbuf := spRun_bufOK chunks
  cases hthink : (spRun chunks).2.isThinking
  · have hsz : (spRun chunks).2.buf.length ≤ 6 := hbuf.2 hthink
    have hnone : firstOccur openTag (spRun chunks).2.buf = none := by
      rw [firstOccur_eq_none_iff]
      intro k hk
      have := occ_add_length_le openTag (by decide) hk
      rw [show openTag.length = 7 from rfl] at this
      omega
    rw [hthink, ideal_false_none hnone] at hgrand
    refine ⟨rfl, ?_, rfl⟩
    have := congrArg Prod.fst hgrand
    simpa using this.symm
  · exfalso
    have hsz : (spRun chunks).2.buf.length ≤ 7 := hbuf.1 hthink
    have hnone : firstOccur closeTag (spRun chunks).2.buf = none := by
      rw [firstOccur_eq_none_iff]
      intro k hk
      have := occ_add_length_le closeTag (by decide) hk
      rw [show closeTag.length = 8 from rfl] at this
      omega
    rw [hthink, ideal_true_none hnone] at hgrand
    have := congrArg Prod.snd hgrand
    simp at this

/-- Witness for the amended C2: `"x<think>h</think>y"` split inside the
opening delimiter as `["x<thi", "nk>h</think>y"]` filters to `"xy"`. -/
theorem spRun_chunking_invariance_witness :
    (spRun [("x<thi".toList), ("nk>h</think>y".toList)]).1 ++
        (spRun [("x<thi".toList), ("nk>h</think>y".toList)]).2.buf =
      spanFree [(("x".toList), ("h".toList))] ("y".toList) :=
  (spRun_chunking_invariance [(("x".toList), ("h".toList))] ("y".toList)
    [("x<thi".toList), ("nk>h</think>y".toList)] (by decide) (by decide)).2.1

theorem spRun_tail_example :
    spRun [("a<".toList)] = ([], ⟨false, ("a<".toList)⟩) := by
  show spRunFrom spInit [("a<".toList)] = _
  rw [spRunFrom_cons]
  have hp : spProcess spInit ("a<".toList) = ([], ⟨false, ("a<".toList)⟩) := by
    unfold spProcess spInit
    rw [if_neg (by decide)]
    show spLoop false ([] ++ ("a<".toList)) = _
    rw [List.nil_append]
    exact spLoop_false_short_has (by decide) (by decide) (by decide)
  rw [hp]
  simp [spRunFrom]

/-- C2 counterexample: the span-free string `"a<"` (zero well-formed spans)
fed as a single chunk yields no output at all — the trailing `"a<"` is
withheld and `finalize` never flushes it — so the concatenated output is
`""`, not `"a<"`. -/
theorem spRun_tail_lost_counterexample :
    segsOK [] ("a<".toList) = true ∧
      segBuild [] ("a<".toList) = ("a<".toList) ∧
      (spRun [("a<".toList)]).1 ++
          (spFinalize (spRun [("a<".toList)]).2).flatten = [] ∧
      spanFree [] ("a<".toList) = ("a<".toList) ∧
      ([] : Str) ≠ ("a<".toList) := by
  refine ⟨by decide, rfl, ?_, rfl, by decide⟩
  rw [spRun_tail_example]
  rfl

/-- C7 counterexample: after processing `["a<"]` the filter is in Normal
state with the non-empty withheld tail `"a<"`, yet `finalize()` emits
nothing rather than flushing the tail verbatim. -/
theorem spFinalize_normal_tail_counterexample :
    (spRun [("a<".toList)]).2.isThinking = false ∧
      (spRun [("a<".toList)]).2.buf = ("a<".toList) ∧
      (spRun [("a<".toList)]).2.buf ≠ [] ∧
      spFinalize (spRun [("a<".toList)]).2 = [] := by
  rw [spRun_tail_example]
  exact ⟨rfl, rfl, by decide, rfl⟩

/-- C7 amended: `finalize()` of the tag-filter configuration emits nothing
in every reachable state — it discards a Normal-state withheld tail instead
of flushing it, and likewise emits nothing in the in-span state. -/
theorem spFinalize_emits_nothing (chunks : List Str) :
    spFinalize (spRun chunks).2 = [] := rfl

end UIGen
